import Mathlib

/- Shallow embedding of the Playground repository's divergence estimators.

   Samples are lists of rationals (every floating-point input is a rational
   number), so all structural computation (sorting, run-length encoding,
   interpolation knots, masks and counts) is exact and executable; only the
   final results involving logarithms and square roots live in the reals.

   Fallible numpy operations (reductions over empty arrays, assertion
   failures, integer division by zero) are modelled with Option: a `none`
   stands for the exception the Python code raises on that input. -/

namespace Playground

/-- Ascending sort of a rational sample, modelling np.sort / ndarray.sort
    (as a value, any correct sort of a list of rationals agrees). -/
def npSort (l : List ℚ) : List ℚ := List.insertionSort (· ≤ ·) l

/-- Maximal runs of equal adjacent elements, as (length, value) pairs in order
    of appearance.  This is the content computed by the index arithmetic in
    the source's rle: pairwise-unequal positions, diffs of those positions as
    run lengths, and the values at the run ends. -/
def runs : List ℚ → List (ℕ × ℚ)
  | [] => []
  | x :: xs =>
    match runs xs with
    | [] => [(1, x)]
    | (k, v) :: rest => if x = v then (k + 1, v) :: rest else (1, x) :: (k, v) :: rest

/-- Start positions of the runs: np.cumsum(np.append(0, z))[:-1]. -/
def runStarts : ℕ → List ℕ → List ℕ
  | _, [] => []
  | c, k :: ks => c :: runStarts (c + k) ks

/-- Run Length Encoding (source: rle).  Empty input yields none, modelling the
    (None, None, None) triple; otherwise the run lengths, the start positions
    and the run values. -/
def rle (ia : List ℚ) : Option (List ℕ × List ℕ × List ℚ) :=
  if ia = [] then none
  else
    let z := (runs ia).map Prod.fst
    some (z, runStarts 0 z, (runs ia).map Prod.snd)

/-- Running totals with initial offset: np.cumsum. -/
def cumsum : ℚ → List ℚ → List ℚ
  | _, [] => []
  | c, x :: xs => (c + x) :: cumsum (c + x) xs

/-- One step of piecewise-linear interpolation through the remaining knots,
    already to the right of every earlier knot; 1 beyond the last knot. -/
def interpGo (x : ℚ) : ℚ × ℚ → List (ℚ × ℚ) → ℚ
  | (x0, y0), [] => if x ≤ x0 then y0 else 1
  | (x0, y0), (x1, y1) :: rest =>
    if x ≤ x0 then y0
    else if x < x1 then y0 + (y1 - y0) * (x - x0) / (x1 - x0)
    else interpGo x (x1, y1) rest

/-- np.interp with left=0 and right=1, for strictly increasing knot
    abscissae: 0 below the first knot, 1 above the last knot, the knot
    ordinate at a knot, and linear interpolation in between. -/
def np_interp (knots : List (ℚ × ℚ)) (x : ℚ) : ℚ :=
  match knots with
  | [] => 0
  | p :: rest => if x < p.1 then 0 else interpGo x p rest

/-- First knot abscissa (0 for no knots). -/
def firstFst : List (ℚ × ℚ) → ℚ
  | [] => 0
  | p :: _ => p.1

/-- Last knot abscissa (0 for no knots). -/
def lastFst : List (ℚ × ℚ) → ℚ
  | [] => 0
  | [p] => p.1
  | _ :: q :: rest => lastFst (q :: rest)

/-- Mid-step knots of the empirical CDF, fused over the runs of the sorted
    sample: the knot for a run of length k of value v, with c sample points
    strictly before it, is (v, (c + k/2) / n). -/
def midKnots (n : ℚ) : ℚ → List (ℕ × ℚ) → List (ℚ × ℚ)
  | _, [] => []
  | c, (k, v) :: rest => (v, (c + (k : ℚ) / 2) / n) :: midKnots n (c + (k : ℚ)) rest

/-- Sorted distinct values of a sample, modelling np.unique. -/
def np_unique (X : List ℚ) : List ℚ := (runs (npSort X)).map Prod.snd

/-- Interpolation knots built by ecdf: sorted unique values against the
    mid-step heights (cumsum(rle) - 0.5 rle)/n, with the optional left bound
    prepended at height 0 when it differs from the smallest value, and the
    optional right bound appended at height 1 when it differs from the
    largest value. -/
def ecdfKnots (X : List ℚ) (Xmin Xmax : Option ℚ) : List (ℚ × ℚ) :=
  let n : ℚ := (X.length : ℚ)
  let Xs := npSort X
  let X_u := (runs Xs).map Prod.snd
  let X_rle : List ℚ :=
    if Xs.length ≠ X_u.length then (runs Xs).map (fun r => (r.1 : ℚ))
    else List.replicate Xs.length 1
  let y0 := List.zipWith (fun c l => (c - l / 2) / n) (cumsum 0 X_rle) X_rle
  let xu1 := match Xmin with
    | some a => if X_u.head? ≠ some a then a :: X_u else X_u
    | none => X_u
  let y1 := match Xmin with
    | some a => if X_u.head? ≠ some a then 0 :: y0 else y0
    | none => y0
  let xu2 := match Xmax with
    | some b => if xu1.getLast? ≠ some b then xu1 ++ [b] else xu1
    | none => xu1
  let y2 := match Xmax with
    | some b => if xu1.getLast? ≠ some b then y1 ++ [1] else y1
    | none => y1
  xu2.zip y2

/-- The knots an optional left domain bound contributes (height 0),
    given the sorted unique values of the sample. -/
def ecdfPre (Xmin : Option ℚ) (xu : List ℚ) : List (ℚ × ℚ) :=
  match Xmin with
  | none => []
  | some a => if xu.head? ≠ some a then [(a, 0)] else []

/-- The knots an optional right domain bound contributes (height 1). -/
def ecdfPost (Xmax : Option ℚ) (xu : List ℚ) : List (ℚ × ℚ) :=
  match Xmax with
  | none => []
  | some b => if xu.getLast? ≠ some b then [(b, 1)] else []

/-- Empirical CDF (source: ecdf): the function returned is
    functools.partial over np.interp with the knots above. -/
def ecdf (X : List ℚ) (Xmin Xmax : Option ℚ) : ℚ → ℚ :=
  fun t => np_interp (ecdfKnots X Xmin Xmax) t

/-- Minimum of a sample, modelling ndarray.min (which fails on an empty
    array; every use below is on a provably non-empty sample). -/
def npMin : List ℚ → ℚ
  | [] => 0
  | x :: xs => xs.foldl min x

/-- Maximum of a sample, modelling ndarray.max. -/
def npMax : List ℚ → ℚ
  | [] => 0
  | x :: xs => xs.foldl max x

/-- Adjacent differences: np.diff. -/
def diffsAdj : List ℚ → List ℚ
  | [] => []
  | [_] => []
  | a :: b :: rest => (b - a) :: diffsAdj (b :: rest)

/-- Default epsilon of kl_div: half the minimum spacing pooled over the
    unique values of both samples; none when both diff arrays are empty
    (the min reduction over an empty array raises ValueError). -/
def eps_default (X Y : List ℚ) : Option ℚ :=
  match diffsAdj (np_unique X) ++ diffsAdj (np_unique Y) with
  | [] => none
  | g :: gs => some (gs.foldl min g / 2)

/-- Finite difference of the reference CDF P = ecdf(X) at a point of X. -/
def kl_dP (X : List ℚ) (eps : ℚ) (x : ℚ) : ℚ :=
  ecdf X none none x - ecdf X none none (x - eps)

/-- Lower bound of the stretched domain: min of the pooled samples minus eps. -/
def tot_min (X Y : List ℚ) (eps : ℚ) : ℚ := npMin (X ++ Y) - eps

/-- Upper bound of the stretched domain: max of the pooled samples. -/
def tot_max (X Y : List ℚ) : ℚ := npMax (X ++ Y)

/-- Finite difference of the stretched model CDF
    Q = ecdf(Y, X_min=tot_min, X_max=tot_max) at a point of X. -/
def kl_dQ (X Y : List ℚ) (eps : ℚ) (x : ℚ) : ℚ :=
  ecdf Y (some (tot_min X Y eps)) (some (tot_max X Y)) x
    - ecdf Y (some (tot_min X Y eps)) (some (tot_max X Y)) (x - eps)

/-- mask = (dP != 0) & (dQ != 0). -/
def kl_mask (X Y : List ℚ) (eps : ℚ) (x : ℚ) : Bool :=
  decide (kl_dP X eps x ≠ 0 ∧ kl_dQ X Y eps x ≠ 0)

/-- Perez-Cruz KL divergence estimator with an explicit epsilon
    (source: kl_div body after the epsilon derivation; the num_instab
    argument only controls a printed warning and does not affect the value). -/
noncomputable def kl_div (X Y : List ℚ) (eps : ℚ) : ℝ :=
  let odds : List ℚ :=
    (X.filter (kl_mask X Y eps)).map (fun x => kl_dP X eps x / kl_dQ X Y eps x)
  let n : ℕ := odds.length + X.countP (fun x => decide (kl_dP X eps x = 0))
  let result : ℝ := (odds.map (fun o => Real.log ((o : ℚ) : ℝ))).sum / (n : ℝ) - 1
  max result 0

/-- Full entry point of kl_div including the default-epsilon derivation:
    none models the ValueError raised when a sample is empty, or when eps is
    omitted and both diff arrays are empty (both samples constant). -/
noncomputable def kl_div_full (X Y : List ℚ) (eps? : Option ℚ) : Option ℝ :=
  if X = [] ∨ Y = [] then none
  else
    match eps? with
    | some e => some (kl_div X Y e)
    | none => (eps_default X Y).map (fun e => kl_div X Y e)

/-- Squared euclidean distance between two points (rows). -/
def sqDist (p q : List ℚ) : ℚ :=
  ((List.zip p q).map (fun ab => (ab.1 - ab.2) * (ab.1 - ab.2))).sum

/-- Squared distances from p to every point of s, ascending: the KDTree
    query returns the k smallest distances in ascending order, which are the
    square roots of the first k entries of this list. -/
def nnSqSorted (s : List (List ℚ)) (p : List ℚ) : List ℚ :=
  npSort (s.map (fun q => sqDist p q))

/-- The distances row KDTree(s).query(p, k) (as squared distances). -/
def knnRowSq (s : List (List ℚ)) (p : List ℚ) (k : ℕ) : List ℚ :=
  (nnSqSorted s p).take k

/-- Distance from p to its k-th nearest neighbour in s (1-based k). -/
noncomputable def kth_nn_dist (s : List (List ℚ)) (p : List ℚ) (k : ℕ) : ℝ :=
  Real.sqrt (((nnSqSorted s p).getD (k - 1) 0 : ℚ) : ℝ)

/-- verify_sample_shapes: both samples are genuine two-dimensional arrays
    (non-empty and rectangular) of the same column dimension. -/
def sample_shapes_ok (s1 s2 : List (List ℚ)) : Bool :=
  (!s1.isEmpty) && (!s2.isEmpty)
    && s1.all (fun r => r.length == (s1.headD []).length)
    && s2.all (fun r => r.length == (s2.headD []).length)
    && ((s1.headD []).length == (s2.headD []).length)

/-- Wang et al. k-NN KL divergence estimator (source: scipy_estimator).
    none models the AssertionError of verify_sample_shapes and the
    ZeroDivisionError of m/(n-1) when n = 1.  The k==1 and k>1 shapes of the
    KDTree result are mirrored by the two branches. -/
noncomputable def scipy_estimator (s1 s2 : List (List ℚ)) (k : ℕ) : Option ℝ :=
  if sample_shapes_ok s1 s2 = false then none
  else if s1.length = 1 then none
  else
    let n := s1.length
    let m := s2.length
    let d : ℝ := ((s1.headD []).length : ℝ)
    let base : ℝ := Real.log ((m : ℝ) / ((n : ℝ) - 1))
    let term : ℝ :=
      if 1 < k then
        (s1.map (fun p =>
          Real.log (Real.sqrt (((knnRowSq s2 p k).getLastD 0 : ℚ) : ℝ)
            / Real.sqrt (((knnRowSq s1 p (k + 1)).getLastD 0 : ℚ) : ℝ)))).sum
      else
        (s1.map (fun p =>
          Real.log (Real.sqrt (((knnRowSq s2 p k).headD 0 : ℚ) : ℝ)
            / Real.sqrt (((knnRowSq s1 p (k + 1)).getLastD 0 : ℚ) : ℝ)))).sum
    some (max (base + (d / (n : ℝ)) * term) 0)

/-- Contribution of bin i to the binned estimator: a bin empty under Y is
    skipped (contributes 0), otherwise p_i * log(p_i / q_i). -/
noncomputable def binContrib (binT : ℚ → ℕ) (X Y : List ℚ) (i : ℕ) : ℝ :=
  let y_count := (Y.map binT).count i
  if y_count = 0 then 0
  else
    let x_count := (X.map binT).count i
    ((x_count : ℝ) / (X.length : ℝ))
      * Real.log (((x_count : ℝ) / (X.length : ℝ)) / ((y_count : ℝ) / (Y.length : ℝ)))

/-- Binned KL divergence estimator (source: kl_div_bin).  The fitted
    KBinsDiscretizer is an external collaborator; the bin assignment it
    returns is the function argument binT, applied elementwise to both
    samples as fit_transform / transform do. -/
noncomputable def kl_div_bin (binT : ℚ → ℕ) (n_bins : ℕ) (X Y : List ℚ) : ℝ :=
  max 0 (((List.range n_bins).map (binContrib binT X Y)).sum)

/-- Reconstruction of a sample from run lengths and run values. -/
def runDecode (z : List ℕ) (v : List ℚ) : List ℚ :=
  (List.zipWith (fun k w => List.replicate k w) z v).flatten

/-- The 0/1 missingness indicator of one feature entry: x == special_code
    when a sentinel is given, x.isna() otherwise (a NaN entry is the value
    none, and NaN == special_code is false in pandas). -/
def x_indicator (special_code : Option ℚ) (xi : Option ℚ) : ℚ :=
  match special_code with
  | none => if xi = none then 1 else 0
  | some c => if xi = some c then 1 else 0

/-- Mixed-variable mutual information (source: mutual_info_classif_mixed).
    The base estimator mutual_info_classif is an external collaborator,
    passed as the function mi (feature values, labels, discrete flag). -/
noncomputable def mutual_info_classif_mixed (mi : List (Option ℚ) → List ℚ → Bool → ℝ)
    (x : List (Option ℚ)) (y : List ℚ) (special_code : Option ℚ) : ℝ :=
  let x_d : List ℚ := x.map (x_indicator special_code)
  let pairs := (x.zip y).filter (fun p => decide (x_indicator special_code p.1 = 0))
  let x_c := pairs.map Prod.fst
  let y_c := pairs.map Prod.snd
  let mi_d := mi (x_d.map (fun v => some v)) y true
  let mi_c := mi x_c y_c false
  mi_d + (1 - x_d.sum / (x_d.length : ℚ)) * mi_c

/- ------------------------------------------------------------------ -/
/- Lemmas about runs (run-length encoding).                            -/
/- ------------------------------------------------------------------ -/

theorem runs_cons (x : ℚ) (xs : List ℚ) :
    runs (x :: xs) = match runs xs with
      | [] => [(1, x)]
      | (k, v) :: rest =>
        if x = v then (k + 1, v) :: rest else (1, x) :: (k, v) :: rest := rfl

theorem runs_cons_of_runs_nil (x : ℚ) {xs : List ℚ} (h : runs xs = []) :
    runs (x :: xs) = [(1, x)] := by
  rw [runs_cons, h]

theorem runs_cons_of_runs_cons (x : ℚ) {xs : List ℚ} {k : ℕ} {v : ℚ}
    {rest : List (ℕ × ℚ)} (h : runs xs = (k, v) :: rest) :
    runs (x :: xs) = if x = v then (k + 1, v) :: rest
      else (1, x) :: (k, v) :: rest := by
  rw [runs_cons, h]

theorem runs_eq_nil_iff (l : List ℚ) : runs l = [] ↔ l = [] := by
  cases l with
  | nil => simp [runs]
  | cons x xs =>
    cases h : runs xs with
    | nil => rw [runs_cons_of_runs_nil x h]; simp
    | cons p rest =>
      obtain ⟨k, v⟩ := p
      rw [runs_cons_of_runs_cons x h]
      by_cases hx : x = v <;> simp [hx]

theorem runs_head_value (x : ℚ) (xs : List ℚ) :
    ((runs (x :: xs)).head?).map Prod.snd = some x := by
  cases h : runs xs with
  | nil => rw [runs_cons_of_runs_nil x h]; simp
  | cons p rest =>
    obtain ⟨k, v⟩ := p
    rw [runs_cons_of_runs_cons x h]
    by_cases hx : x = v <;> simp [hx]

theorem runs_flatten (l : List ℚ) :
    ((runs l).map (fun r => List.replicate r.1 r.2)).flatten = l := by
  induction l with
  | nil => simp [runs]
  | cons x xs ih =>
    cases h : runs xs with
    | nil =>
      rw [h] at ih
      simp only [List.map_nil, List.flatten_nil] at ih
      rw [runs_cons_of_runs_nil x h]
      simp [← ih]
    | cons p rest =>
      obtain ⟨k, v⟩ := p
      rw [h] at ih
      rw [runs_cons_of_runs_cons x h]
      by_cases hx : x = v
      · subst hx
        rw [if_pos rfl]
        simp only [List.map_cons, List.flatten_cons] at ih ⊢
        rw [List.replicate_succ, List.cons_append, ih]
      · rw [if_neg hx]
        simp only [List.map_cons, List.flatten_cons] at ih ⊢
        rw [ih]
        simp

theorem runs_length_pos (l : List ℚ) : ∀ r ∈ runs l, 0 < r.1 := by
  induction l with
  | nil => simp [runs]
  | cons x xs ih =>
    cases h : runs xs with
    | nil =>
      rw [runs_cons_of_runs_nil x h]
      intro r hr
      simp only [List.mem_singleton] at hr
      subst hr; norm_num
    | cons p rest =>
      obtain ⟨k, v⟩ := p
      rw [h] at ih
      rw [runs_cons_of_runs_cons x h]
      by_cases hx : x = v
      · rw [if_pos hx]
        intro r hr
        rcases List.mem_cons.1 hr with h1 | h1
        · subst h1; norm_num
        · exact ih r (List.mem_cons_of_mem _ h1)
      · rw [if_neg hx]
        intro r hr
        rcases List.mem_cons.1 hr with h1 | h1
        · subst h1; norm_num
        · exact ih r h1

theorem runs_sum_lengths (l : List ℚ) : ((runs l).map Prod.fst).sum = l.length := by
  induction l with
  | nil => simp [runs]
  | cons x xs ih =>
    cases h : runs xs with
    | nil =>
      have hxs : xs = [] := (runs_eq_nil_iff xs).1 h
      subst hxs
      rw [runs_cons_of_runs_nil x h]
      simp
    | cons p rest =>
      obtain ⟨k, v⟩ := p
      rw [h] at ih
      rw [runs_cons_of_runs_cons x h]
      by_cases hx : x = v
      · rw [if_pos hx]
        simp only [List.map_cons, List.sum_cons, List.length_cons] at ih ⊢
        omega
      · rw [if_neg hx]
        simp only [List.map_cons, List.sum_cons, List.length_cons] at ih ⊢
        omega

theorem runs_values_chain (l : List ℚ) (hl : List.Sorted (· ≤ ·) l) :
    ((runs l).map Prod.snd).Chain' (· < ·) := by
  induction l with
  | nil => simp [runs]
  | cons x xs ih =>
    obtain ⟨hxle, hxs⟩ := List.sorted_cons.1 hl
    cases h : runs xs with
    | nil => rw [runs_cons_of_runs_nil x h]; simp
    | cons p rest =>
      obtain ⟨k, v⟩ := p
      have ihc := ih hxs
      rw [h] at ihc
      rw [runs_cons_of_runs_cons x h]
      by_cases hx : x = v
      · rw [if_pos hx]
        simpa using ihc
      · rw [if_neg hx]
        have hxsne : xs ≠ [] := by
          intro he; rw [he] at h; simp [runs] at h
        obtain ⟨a, as, rfl⟩ := List.exists_cons_of_ne_nil hxsne
        have hv : v = a := by
          have := runs_head_value a as
          rw [h] at this
          simpa using this
        have hxa : x < v := by
          have hx1 : x ≤ a := hxle a (List.mem_cons_self a as)
          have hx2 : x ≤ v := by rw [hv]; exact hx1
          exact lt_of_le_of_ne hx2 hx
        simp only [List.map_cons] at ihc ⊢
        exact List.Chain'.cons hxa ihc

theorem runs_cons_inv (l : List ℚ) :
    ∀ (k : ℕ) (v : ℚ) (rest : List (ℕ × ℚ)), runs l = (k, v) :: rest →
      ∃ t, l = List.replicate k v ++ t ∧ runs t = rest ∧
        ∀ w, t.head? = some w → w ≠ v := by
  induction l with
  | nil => intro k v rest h; simp [runs] at h
  | cons x xs ih =>
    intro k v rest h
    cases hxs : runs xs with
    | nil =>
      rw [runs_cons_of_runs_nil x hxs] at h
      have hxe : xs = [] := (runs_eq_nil_iff xs).1 hxs
      obtain ⟨h1, h2⟩ := List.cons_eq_cons.1 h
      have hk : k = 1 := by
        have := congrArg Prod.fst h1
        simpa using this.symm
      have hv : v = x := by
        have := congrArg Prod.snd h1
        simpa using this.symm
      refine ⟨[], ?_, ?_, ?_⟩
      · rw [hxe, hk, hv]; simp
      · rw [← h2]; simp [runs]
      · intro w hw; simp at hw
    | cons p rs =>
      obtain ⟨k', v'⟩ := p
      rw [runs_cons_of_runs_cons x hxs] at h
      by_cases hx : x = v'
      · rw [if_pos hx] at h
        obtain ⟨h1, h2⟩ := List.cons_eq_cons.1 h
        have hk : k = k' + 1 := by
          have := congrArg Prod.fst h1
          simpa using this.symm
        have hv : v = v' := by
          have := congrArg Prod.snd h1
          simpa using this.symm
        obtain ⟨t, ht1, ht2, ht3⟩ := ih k' v' rs hxs
        refine ⟨t, ?_, ?_, ?_⟩
        · rw [hk, hv, List.replicate_succ, List.cons_append, ← ht1, hx]
        · rw [ht2, h2]
        · rw [hv]; exact ht3
      · rw [if_neg hx] at h
        obtain ⟨h1, h2⟩ := List.cons_eq_cons.1 h
        have hk : k = 1 := by
          have := congrArg Prod.fst h1
          simpa using this.symm
        have hv : v = x := by
          have := congrArg Prod.snd h1
          simpa using this.symm
        refine ⟨xs, ?_, ?_, ?_⟩
        · rw [hk, hv]; simp
        · rw [hxs, ← h2]
        · intro w hw
          have hxsne : xs ≠ [] := by
            intro he; rw [he] at hw; simp at hw
          obtain ⟨a, as, rfl⟩ := List.exists_cons_of_ne_nil hxsne
          have hva : v' = a := by
            have := runs_head_value a as
            rw [hxs] at this
            simpa using this
          simp only [List.head?_cons, Option.some.injEq] at hw
          rw [hv]
          intro hc
          exact hx ((hva.trans hw).trans hc).symm

theorem runs_values_mem (l : List ℚ) (w : ℚ) :
    w ∈ (runs l).map Prod.snd ↔ w ∈ l := by
  constructor
  · intro hw
    obtain ⟨r, hr, hrw⟩ := List.mem_map.1 hw
    have hfl := runs_flatten l
    rw [← hfl]
    refine List.mem_flatten.2 ⟨List.replicate r.1 r.2, List.mem_map_of_mem _ hr, ?_⟩
    rw [hrw]
    refine List.mem_replicate.2 ⟨?_, rfl⟩
    have := runs_length_pos l r hr
    omega
  · intro hw
    have hfl := runs_flatten l
    rw [← hfl] at hw
    obtain ⟨s, hs, hws⟩ := List.mem_flatten.1 hw
    obtain ⟨r, hr, hrs⟩ := List.mem_map.1 hs
    rw [← hrs] at hws
    obtain ⟨-, rfl⟩ := List.mem_replicate.1 hws
    exact List.mem_map_of_mem _ hr


/- ------------------------------------------------------------------ -/
/- Counting and sortedness helpers.                                    -/
/- ------------------------------------------------------------------ -/

theorem countP_replicate_q (p : ℚ → Bool) (k : ℕ) (v : ℚ) :
    (List.replicate k v).countP p = if p v then k else 0 := by
  induction k with
  | zero => simp
  | succ k ih =>
    rw [List.replicate_succ, List.countP_cons, ih]
    by_cases h : p v <;> simp [h]

theorem count_replicate_q (k : ℕ) (v a : ℚ) :
    (List.replicate k v).count a = if a = v then k else 0 := by
  induction k with
  | zero => simp
  | succ k ih =>
    rw [List.replicate_succ, List.count_cons, ih]
    by_cases h : a = v
    · simp [h]
    · simp [h, Ne.symm h]

theorem length_le_sum_of_pos (z : List ℕ) (hpos : ∀ a ∈ z, 0 < a) :
    z.length ≤ z.sum := by
  induction z with
  | nil => simp
  | cons a as ih =>
    simp only [List.length_cons, List.sum_cons]
    have ha := hpos a (List.mem_cons_self a as)
    have has := ih (fun b hb => hpos b (List.mem_cons_of_mem _ hb))
    omega

theorem all_one_of_sum_eq_length (z : List ℕ) (hpos : ∀ a ∈ z, 0 < a)
    (hsum : z.sum = z.length) : ∀ a ∈ z, a = 1 := by
  induction z with
  | nil => simp
  | cons a as ih =>
    simp only [List.sum_cons, List.length_cons] at hsum
    have ha : 0 < a := hpos a (List.mem_cons_self a as)
    have has := length_le_sum_of_pos as (fun b hb => hpos b (List.mem_cons_of_mem _ hb))
    intro b hb
    rcases List.mem_cons.1 hb with rfl | hb2
    · omega
    · exact ih (fun b hb => hpos b (List.mem_cons_of_mem _ hb)) (by omega) b hb2

theorem sorted_replicate_append_gt (k : ℕ) (v : ℚ) (t : List ℚ)
    (hs : List.Sorted (· ≤ ·) (List.replicate k v ++ t)) (hk : 0 < k)
    (hh : ∀ w, t.head? = some w → w ≠ v) : ∀ w ∈ t, v < w := by
  intro w hw
  obtain ⟨h1, h2, h3⟩ := List.pairwise_append.1 hs
  cases t with
  | nil => simp at hw
  | cons a as =>
    have hva : v ≤ a :=
      h3 v (List.mem_replicate.2 ⟨by omega, rfl⟩) a (List.mem_cons_self a as)
    have hane : a ≠ v := hh a rfl
    have hvalt : v < a := lt_of_le_of_ne hva (fun hc => hane hc.symm)
    rcases List.mem_cons.1 hw with rfl | hw2
    · exact hvalt
    · have haw : a ≤ w := (List.sorted_cons.1 h2).1 w hw2
      exact lt_of_lt_of_le hvalt haw

theorem npSort_sorted (X : List ℚ) : List.Sorted (· ≤ ·) (npSort X) :=
  List.sorted_insertionSort _ X

theorem npSort_perm (X : List ℚ) : (npSort X).Perm X :=
  List.perm_insertionSort _ X

theorem np_unique_ne_nil (X : List ℚ) (hX : X ≠ []) : np_unique X ≠ [] := by
  unfold np_unique
  intro h
  rw [List.map_eq_nil_iff, runs_eq_nil_iff] at h
  have hp := npSort_perm X
  rw [h] at hp
  exact hX hp.symm.eq_nil

/- ------------------------------------------------------------------ -/
/- The mid-step knots of ecdf.                                         -/
/- ------------------------------------------------------------------ -/

theorem midKnots_cons (n c : ℚ) (k : ℕ) (v : ℚ) (rest : List (ℕ × ℚ)) :
    midKnots n c ((k, v) :: rest)
      = (v, (c + (k : ℚ) / 2) / n) :: midKnots n (c + (k : ℚ)) rest := rfl

theorem cumsum_cons (c x : ℚ) (xs : List ℚ) :
    cumsum c (x :: xs) = (c + x) :: cumsum (c + x) xs := rfl

theorem zip_heights_eq_midKnots (n : ℚ) (rs : List (ℕ × ℚ)) :
    ∀ c : ℚ,
      (rs.map Prod.snd).zip
        (List.zipWith (fun cu l => (cu - l / 2) / n)
          (cumsum c (rs.map (fun r => (r.1 : ℚ)))) (rs.map (fun r => (r.1 : ℚ))))
      = midKnots n c rs := by
  induction rs with
  | nil => intro c; simp [midKnots]
  | cons r rest ih =>
    intro c
    obtain ⟨k, v⟩ := r
    simp only [List.map_cons, cumsum_cons, List.zipWith_cons_cons,
      List.zip_cons_cons, midKnots_cons]
    rw [ih]
    have harith : (c + (k : ℚ) - (k : ℚ) / 2) / n = (c + (k : ℚ) / 2) / n := by
      ring_nf
    rw [harith]

theorem midKnots_map_fst (n : ℚ) :
    ∀ (c : ℚ) (rs : List (ℕ × ℚ)), (midKnots n c rs).map Prod.fst = rs.map Prod.snd := by
  intro c rs
  induction rs generalizing c with
  | nil => simp [midKnots]
  | cons r rest ih =>
    obtain ⟨k, v⟩ := r
    rw [midKnots_cons]
    simp only [List.map_cons, ih]

theorem midKnots_length (n : ℚ) :
    ∀ (c : ℚ) (rs : List (ℕ × ℚ)), (midKnots n c rs).length = rs.length := by
  intro c rs
  induction rs generalizing c with
  | nil => simp [midKnots]
  | cons r rest ih =>
    obtain ⟨k, v⟩ := r
    rw [midKnots_cons]
    simp [ih]

theorem midKnots_chainY (n : ℚ) (hn : 0 < n) :
    ∀ (rs : List (ℕ × ℚ)) (c : ℚ), (∀ r ∈ rs, 0 < r.1) →
      (midKnots n c rs).Chain' (fun p q => p.2 < q.2) := by
  intro rs
  induction rs with
  | nil => intro c _; simp [midKnots]
  | cons r rest ih =>
    intro c hpos
    obtain ⟨k, v⟩ := r
    rw [midKnots_cons]
    have hrest := ih (c + (k : ℚ)) (fun r hr => hpos r (List.mem_cons_of_mem _ hr))
    cases rest with
    | nil => simp [midKnots]
    | cons r2 rest2 =>
      obtain ⟨k2, v2⟩ := r2
      rw [midKnots_cons] at hrest ⊢
      refine List.Chain'.cons ?_ hrest
      have hk : (1 : ℚ) ≤ (k : ℚ) := by
        have := hpos (k, v) (List.mem_cons_self _ _)
        exact_mod_cast this
      have hk2 : (0 : ℚ) ≤ (k2 : ℚ) := by positivity
      have hnum : c + (k : ℚ) / 2 < c + (k : ℚ) + (k2 : ℚ) / 2 := by linarith
      exact div_lt_div_of_pos_right hnum hn

theorem midKnots_bounds (n : ℚ) (hn : 0 < n) :
    ∀ (rs : List (ℕ × ℚ)) (c : ℚ), 0 ≤ c → (∀ r ∈ rs, 0 < r.1) →
      c + (((rs.map Prod.fst).sum : ℕ) : ℚ) ≤ n →
      ∀ p ∈ midKnots n c rs, 0 < p.2 ∧ p.2 < 1 := by
  intro rs
  induction rs with
  | nil => intro c _ _ _ p hp; simp [midKnots] at hp
  | cons r rest ih =>
    intro c hc hpos hsum p hp
    obtain ⟨k, v⟩ := r
    rw [midKnots_cons] at hp
    have hk : (1 : ℚ) ≤ (k : ℚ) := by
      have := hpos (k, v) (List.mem_cons_self _ _)
      exact_mod_cast this
    have hsum2 : (c + (k : ℚ)) + (((rest.map Prod.fst).sum : ℕ) : ℚ) ≤ n := by
      simp only [List.map_cons, List.sum_cons] at hsum
      push_cast at hsum ⊢
      linarith
    rcases List.mem_cons.1 hp with rfl | hp2
    · constructor
      · apply div_pos (by linarith) hn
      · rw [div_lt_one hn]
        have hr : (0 : ℚ) ≤ (((rest.map Prod.fst).sum : ℕ) : ℚ) := by positivity
        linarith
    · exact ih (c + (k : ℚ)) (by linarith) (fun r hr => hpos r (List.mem_cons_of_mem _ hr))
        hsum2 p hp2

theorem midKnots_mem_of_mem (n : ℚ) :
    ∀ (N : ℕ) (l : List ℚ), l.length ≤ N → List.Sorted (· ≤ ·) l →
      ∀ (c : ℚ) (v : ℚ), v ∈ l →
        (v, (c + ((l.countP (fun a => decide (a < v)) : ℚ)
            + (l.count v : ℚ) / 2)) / n) ∈ midKnots n c (runs l) := by
  intro N
  induction N with
  | zero =>
    intro l hlen _ c v hv
    have : l = [] := List.length_eq_zero.1 (by omega)
    subst this
    simp at hv
  | succ N ih =>
    intro l hlen hsort c v hv
    cases hr : runs l with
    | nil =>
      rw [runs_eq_nil_iff] at hr
      subst hr
      simp at hv
    | cons r rest =>
      obtain ⟨k, v0⟩ := r
      obtain ⟨t, hdec, hrt, hhead⟩ := runs_cons_inv l k v0 rest hr
      have hkpos : 0 < k := by
        have := runs_length_pos l (k, v0) (by rw [hr]; exact List.mem_cons_self _ _)
        simpa using this
      have hsort2 : List.Sorted (· ≤ ·) (List.replicate k v0 ++ t) := hdec ▸ hsort
      have htgt : ∀ w ∈ t, v0 < w := sorted_replicate_append_gt k v0 t hsort2 hkpos hhead
      have htlen : t.length ≤ N := by
        have hl : l.length = k + t.length := by rw [hdec]; simp
        omega
      have htsort : List.Sorted (· ≤ ·) t :=
        (List.pairwise_append.1 hsort2).2.1
      rw [midKnots_cons]
      rcases List.mem_append.1 (hdec ▸ hv) with hvrep | hvt
      · obtain ⟨-, rfl⟩ := List.mem_replicate.1 hvrep
        have hcountP : l.countP (fun a => decide (a < v)) = 0 := by
          rw [hdec, List.countP_append, countP_replicate_q]
          rw [if_neg (by simp)]
          rw [Nat.zero_add, List.countP_eq_zero]
          intro a ha
          simp only [decide_eq_true_eq]
          exact not_lt.2 (le_of_lt (htgt a ha))
        have hcount : l.count v = k := by
          rw [hdec, List.count_append, count_replicate_q, if_pos rfl]
          have hz : t.count v = 0 := by
            rw [List.count_eq_zero]
            intro hvt2
            exact absurd rfl (ne_of_gt (htgt v hvt2))
          omega
        have harith : (c + ((l.countP (fun a => decide (a < v)) : ℚ)
            + (l.count v : ℚ) / 2)) / n = (c + (k : ℚ) / 2) / n := by
          rw [hcountP, hcount]
          norm_num
        rw [harith]
        exact List.mem_cons_self _ _
      · have hv0v : v0 < v := htgt v hvt
        have hIH := ih t htlen htsort (c + (k : ℚ)) v hvt
        rw [hrt] at hIH
        have hcountP : l.countP (fun a => decide (a < v))
            = k + t.countP (fun a => decide (a < v)) := by
          rw [hdec, List.countP_append, countP_replicate_q, if_pos (by simpa using hv0v),
            Nat.add_comm]
        have hcount : l.count v = t.count v := by
          rw [hdec, List.count_append, count_replicate_q,
            if_neg (ne_of_gt hv0v), Nat.zero_add]
        have harith : (c + ((l.countP (fun a => decide (a < v)) : ℚ)
              + (l.count v : ℚ) / 2)) / n
            = ((c + (k : ℚ)) + ((t.countP (fun a => decide (a < v)) : ℚ)
              + (t.count v : ℚ) / 2)) / n := by
          rw [hcountP, hcount]
          push_cast
          ring_nf
        rw [harith]
        exact List.mem_cons_of_mem _ hIH


/- ------------------------------------------------------------------ -/
/- Properties of np_interp on strictly increasing knots.               -/
/- ------------------------------------------------------------------ -/

theorem interpGo_nil (x x0 y0 : ℚ) :
    interpGo x (x0, y0) [] = if x ≤ x0 then y0 else 1 := rfl

theorem interpGo_cons (x x0 y0 x1 y1 : ℚ) (rest : List (ℚ × ℚ)) :
    interpGo x (x0, y0) ((x1, y1) :: rest)
      = if x ≤ x0 then y0
        else if x < x1 then y0 + (y1 - y0) * (x - x0) / (x1 - x0)
        else interpGo x (x1, y1) rest := rfl

theorem chainX_rel_head (p : ℚ × ℚ) (rest : List (ℚ × ℚ))
    (hx : List.Chain' (fun p q : ℚ × ℚ => p.1 < q.1) (p :: rest)) :
    ∀ q ∈ rest, p.1 < q.1 := by
  induction rest generalizing p with
  | nil => simp
  | cons q rest ih =>
    intro r hr
    have h1 : p.1 < q.1 := (List.chain'_cons.1 hx).1
    rcases List.mem_cons.1 hr with rfl | hr2
    · exact h1
    · exact lt_trans h1 (ih q (List.chain'_cons.1 hx).2 r hr2)

theorem interpGo_ge (x : ℚ) (p : ℚ × ℚ) (rest : List (ℚ × ℚ))
    (hx : List.Chain' (fun p q : ℚ × ℚ => p.1 < q.1) (p :: rest))
    (hy : List.Chain' (fun p q : ℚ × ℚ => p.2 ≤ q.2) (p :: rest))
    (hb : ∀ q ∈ p :: rest, q.2 ≤ 1) :
    p.2 ≤ interpGo x p rest := by
  induction rest generalizing p with
  | nil =>
    obtain ⟨x0, y0⟩ := p
    rw [interpGo_nil]
    by_cases h : x ≤ x0
    · rw [if_pos h]
    · rw [if_neg h]
      exact hb (x0, y0) (List.mem_cons_self _ _)
  | cons q rest ih =>
    obtain ⟨x0, y0⟩ := p
    obtain ⟨x1, y1⟩ := q
    rw [interpGo_cons]
    by_cases h0 : x ≤ x0
    · rw [if_pos h0]
    · rw [if_neg h0]
      have hx01 : x0 < x1 := (List.chain'_cons.1 hx).1
      have hy01 : y0 ≤ y1 := (List.chain'_cons.1 hy).1
      by_cases h1 : x < x1
      · rw [if_pos h1]
        have hden : (0 : ℚ) < x1 - x0 := by linarith
        have hnum : (0 : ℚ) ≤ x - x0 := by
          have := not_le.1 h0
          linarith
        have hterm : (0 : ℚ) ≤ (y1 - y0) * (x - x0) / (x1 - x0) :=
          div_nonneg (mul_nonneg (by linarith) hnum) hden.le
        linarith
      · rw [if_neg h1]
        have htail := ih (x1, y1) (List.chain'_cons.1 hx).2 (List.chain'_cons.1 hy).2
          (fun q hq => hb q (List.mem_cons_of_mem _ hq))
        simp only at htail
        linarith

theorem interpGo_le_one (x : ℚ) (p : ℚ × ℚ) (rest : List (ℚ × ℚ))
    (hx : List.Chain' (fun p q : ℚ × ℚ => p.1 < q.1) (p :: rest))
    (hy : List.Chain' (fun p q : ℚ × ℚ => p.2 ≤ q.2) (p :: rest))
    (hb : ∀ q ∈ p :: rest, q.2 ≤ 1) :
    interpGo x p rest ≤ 1 := by
  induction rest generalizing p with
  | nil =>
    obtain ⟨x0, y0⟩ := p
    rw [interpGo_nil]
    by_cases h : x ≤ x0
    · rw [if_pos h]
      exact hb (x0, y0) (List.mem_cons_self _ _)
    · rw [if_neg h]
  | cons q rest ih =>
    obtain ⟨x0, y0⟩ := p
    obtain ⟨x1, y1⟩ := q
    rw [interpGo_cons]
    by_cases h0 : x ≤ x0
    · rw [if_pos h0]
      exact hb (x0, y0) (List.mem_cons_self _ _)
    · rw [if_neg h0]
      have hx01 : x0 < x1 := (List.chain'_cons.1 hx).1
      have hy01 : y0 ≤ y1 := (List.chain'_cons.1 hy).1
      by_cases h1 : x < x1
      · rw [if_pos h1]
        have hden : (0 : ℚ) < x1 - x0 := by linarith
        have hy1b : y1 ≤ 1 := hb (x1, y1) (List.mem_cons_of_mem _ (List.mem_cons_self _ _))
        have hfrac : (y1 - y0) * (x - x0) / (x1 - x0) ≤ y1 - y0 := by
          rw [div_le_iff₀ hden]
          have hxx : x - x0 ≤ x1 - x0 := by linarith
          have := mul_le_mul_of_nonneg_left hxx (by linarith : (0 : ℚ) ≤ y1 - y0)
          linarith
        linarith
      · rw [if_neg h1]
        exact ih (x1, y1) (List.chain'_cons.1 hx).2 (List.chain'_cons.1 hy).2
          (fun q hq => hb q (List.mem_cons_of_mem _ hq))

theorem interpGo_mono (s t : ℚ) (hst : s ≤ t) (p : ℚ × ℚ) (rest : List (ℚ × ℚ))
    (hx : List.Chain' (fun p q : ℚ × ℚ => p.1 < q.1) (p :: rest))
    (hy : List.Chain' (fun p q : ℚ × ℚ => p.2 ≤ q.2) (p :: rest))
    (hb : ∀ q ∈ p :: rest, q.2 ≤ 1) :
    interpGo s p rest ≤ interpGo t p rest := by
  induction rest generalizing p with
  | nil =>
    obtain ⟨x0, y0⟩ := p
    rw [interpGo_nil, interpGo_nil]
    by_cases hs : s ≤ x0
    · rw [if_pos hs]
      by_cases ht : t ≤ x0
      · rw [if_pos ht]
      · rw [if_neg ht]
        exact hb (x0, y0) (List.mem_cons_self _ _)
    · rw [if_neg hs, if_neg (fun hc => hs (le_trans hst hc))]
  | cons q rest ih =>
    obtain ⟨x0, y0⟩ := p
    obtain ⟨x1, y1⟩ := q
    have hx01 : x0 < x1 := (List.chain'_cons.1 hx).1
    have hy01 : y0 ≤ y1 := (List.chain'_cons.1 hy).1
    by_cases hs0 : s ≤ x0
    · rw [interpGo_cons]
      rw [if_pos hs0]
      exact interpGo_ge t (x0, y0) ((x1, y1) :: rest) hx hy hb
    · rw [interpGo_cons, interpGo_cons, if_neg hs0,
        if_neg (fun hc => hs0 (le_trans hst hc))]
      have hs0x : x0 < s := not_le.1 hs0
      have hden : (0 : ℚ) < x1 - x0 := by linarith
      by_cases hs1 : s < x1
      · rw [if_pos hs1]
        by_cases ht1 : t < x1
        · rw [if_pos ht1]
          have hnum : (y1 - y0) * (s - x0) ≤ (y1 - y0) * (t - x0) :=
            mul_le_mul_of_nonneg_left (by linarith) (by linarith)
          have := (div_le_div_iff_of_pos_right hden).2 hnum
          linarith
        · rw [if_neg ht1]
          have hge := interpGo_ge t (x1, y1) rest (List.chain'_cons.1 hx).2
            (List.chain'_cons.1 hy).2 (fun q hq => hb q (List.mem_cons_of_mem _ hq))
          simp only at hge
          have hfrac : (y1 - y0) * (s - x0) / (x1 - x0) ≤ y1 - y0 := by
            rw [div_le_iff₀ hden]
            have hxx : s - x0 ≤ x1 - x0 := by linarith
            have := mul_le_mul_of_nonneg_left hxx (by linarith : (0 : ℚ) ≤ y1 - y0)
            linarith
          linarith
      · rw [if_neg hs1, if_neg (fun hc => hs1 (lt_of_le_of_lt hst hc))]
        exact ih (x1, y1) (List.chain'_cons.1 hx).2 (List.chain'_cons.1 hy).2
          (fun q hq => hb q (List.mem_cons_of_mem _ hq))

theorem np_interp_mono (kn : List (ℚ × ℚ))
    (hx : List.Chain' (fun p q : ℚ × ℚ => p.1 < q.1) kn)
    (hy : List.Chain' (fun p q : ℚ × ℚ => p.2 ≤ q.2) kn)
    (hb : ∀ q ∈ kn, 0 ≤ q.2 ∧ q.2 ≤ 1) (s t : ℚ) (hst : s ≤ t) :
    np_interp kn s ≤ np_interp kn t := by
  cases kn with
  | nil => simp [np_interp]
  | cons p rest =>
    simp only [np_interp]
    by_cases hs : s < p.1
    · rw [if_pos hs]
      by_cases ht : t < p.1
      · rw [if_pos ht]
      · rw [if_neg ht]
        have h1 := interpGo_ge t p rest hx hy (fun q hq => (hb q hq).2)
        have h2 := (hb p (List.mem_cons_self _ _)).1
        linarith
    · rw [if_neg hs, if_neg (fun hc => hs (lt_of_le_of_lt hst hc))]
      exact interpGo_mono s t hst p rest hx hy (fun q hq => (hb q hq).2)

theorem np_interp_bounds (kn : List (ℚ × ℚ))
    (hx : List.Chain' (fun p q : ℚ × ℚ => p.1 < q.1) kn)
    (hy : List.Chain' (fun p q : ℚ × ℚ => p.2 ≤ q.2) kn)
    (hb : ∀ q ∈ kn, 0 ≤ q.2 ∧ q.2 ≤ 1) (t : ℚ) :
    0 ≤ np_interp kn t ∧ np_interp kn t ≤ 1 := by
  cases kn with
  | nil => simp [np_interp]
  | cons p rest =>
    simp only [np_interp]
    by_cases ht : t < p.1
    · rw [if_pos ht]
      norm_num
    · rw [if_neg ht]
      constructor
      · have h1 := interpGo_ge t p rest hx hy (fun q hq => (hb q hq).2)
        have h2 := (hb p (List.mem_cons_self _ _)).1
        linarith
      · exact interpGo_le_one t p rest hx hy (fun q hq => (hb q hq).2)

theorem interpGo_knot (a b : ℚ) (p : ℚ × ℚ) (rest : List (ℚ × ℚ))
    (hx : List.Chain' (fun p q : ℚ × ℚ => p.1 < q.1) (p :: rest))
    (hmem : (a, b) ∈ p :: rest) (hpa : p.1 ≤ a) :
    interpGo a p rest = b := by
  induction rest generalizing p with
  | nil =>
    obtain ⟨x0, y0⟩ := p
    simp only [List.mem_singleton] at hmem
    obtain ⟨ha, hb2⟩ := Prod.mk.injEq _ _ _ _ ▸ hmem
    rw [interpGo_nil]
    rw [if_pos (le_of_eq ha)]
    exact hb2.symm
  | cons q rest ih =>
    obtain ⟨x0, y0⟩ := p
    obtain ⟨x1, y1⟩ := q
    have hx01 : x0 < x1 := (List.chain'_cons.1 hx).1
    rw [interpGo_cons]
    rcases List.mem_cons.1 hmem with heq | hmem2
    · have ha : a = x0 := congrArg Prod.fst heq
      have hb2 : b = y0 := congrArg Prod.snd heq
      rw [if_pos (le_of_eq ha), hb2]
    · have hx1a : x1 ≤ a := by
        rcases List.mem_cons.1 hmem2 with heq2 | hmem3
        · exact le_of_eq (congrArg Prod.fst heq2).symm
        · exact le_of_lt (chainX_rel_head (x1, y1) rest (List.chain'_cons.1 hx).2 (a, b) hmem3)
      rw [if_neg (by linarith), if_neg (by linarith)]
      exact ih (x1, y1) (List.chain'_cons.1 hx).2 hmem2 hx1a

theorem np_interp_knot (kn : List (ℚ × ℚ))
    (hx : List.Chain' (fun p q : ℚ × ℚ => p.1 < q.1) kn)
    (a b : ℚ) (hmem : (a, b) ∈ kn) : np_interp kn a = b := by
  cases kn with
  | nil => simp at hmem
  | cons p rest =>
    have hpa : p.1 ≤ a := by
      rcases List.mem_cons.1 hmem with heq | hmem2
      · exact le_of_eq (congrArg Prod.fst heq).symm
      · exact le_of_lt (chainX_rel_head p rest hx (a, b) hmem2)
    simp only [np_interp]
    rw [if_neg (not_lt.2 hpa)]
    exact interpGo_knot a b p rest hx hmem hpa

theorem lastFst_cons_cons (p q : ℚ × ℚ) (rest : List (ℚ × ℚ)) :
    lastFst (p :: q :: rest) = lastFst (q :: rest) := rfl

theorem interpGo_strict (s t : ℚ) (p : ℚ × ℚ) (rest : List (ℚ × ℚ))
    (hx : List.Chain' (fun p q : ℚ × ℚ => p.1 < q.1) (p :: rest))
    (hy : List.Chain' (fun p q : ℚ × ℚ => p.2 < q.2) (p :: rest))
    (hb : ∀ q ∈ p :: rest, q.2 ≤ 1)
    (hps : p.1 ≤ s) (hst : s < t) (hlt : t ≤ lastFst (p :: rest)) :
    interpGo s p rest < interpGo t p rest := by
  induction rest generalizing p with
  | nil =>
    obtain ⟨x0, y0⟩ := p
    have : t ≤ x0 := hlt
    exact absurd (lt_of_lt_of_le hst this) (not_lt.2 hps)
  | cons q rest ih =>
    obtain ⟨x0, y0⟩ := p
    obtain ⟨x1, y1⟩ := q
    have hx01 : x0 < x1 := (List.chain'_cons.1 hx).1
    have hy01 : y0 < y1 := (List.chain'_cons.1 hy).1
    have hden : (0 : ℚ) < x1 - x0 := by linarith
    have hymono : List.Chain' (fun p q : ℚ × ℚ => p.2 ≤ q.2) ((x1, y1) :: rest) :=
      List.Chain'.imp (fun a b hab => le_of_lt hab) (List.chain'_cons.1 hy).2
    rw [interpGo_cons, interpGo_cons]
    by_cases hs0 : s ≤ x0
    · rw [if_pos hs0]
      have hsx0 : s = x0 := le_antisymm hs0 hps
      have ht0 : ¬ t ≤ x0 := by
        rw [← hsx0]
        exact not_le.2 hst
      rw [if_neg ht0]
      by_cases ht1 : t < x1
      · rw [if_pos ht1]
        have hpos : (0 : ℚ) < (y1 - y0) * (t - x0) / (x1 - x0) := by
          apply div_pos _ hden
          apply mul_pos (by linarith)
          have := not_le.1 ht0
          linarith
        linarith
      · rw [if_neg ht1]
        have hge := interpGo_ge t (x1, y1) rest (List.chain'_cons.1 hx).2 hymono
          (fun q hq => hb q (List.mem_cons_of_mem _ hq))
        simp only at hge
        linarith
    · rw [if_neg hs0]
      have hs0x : x0 < s := not_le.1 hs0
      have ht0 : ¬ t ≤ x0 := by
        intro hc
        linarith
      rw [if_neg ht0]
      by_cases hs1 : s < x1
      · rw [if_pos hs1]
        by_cases ht1 : t < x1
        · rw [if_pos ht1]
          have hnum : (y1 - y0) * (s - x0) < (y1 - y0) * (t - x0) :=
            mul_lt_mul_of_pos_left (by linarith) (by linarith)
          have := (div_lt_div_iff_of_pos_right hden).2 hnum
          linarith
        · rw [if_neg ht1]
          have hge := interpGo_ge t (x1, y1) rest (List.chain'_cons.1 hx).2 hymono
            (fun q hq => hb q (List.mem_cons_of_mem _ hq))
          simp only at hge
          have hfrac : (y1 - y0) * (s - x0) / (x1 - x0) < y1 - y0 := by
            rw [div_lt_iff₀ hden]
            have hxx : s - x0 < x1 - x0 := by linarith
            exact mul_lt_mul_of_pos_left hxx (by linarith)
          linarith
      · rw [if_neg hs1, if_neg (fun hc => hs1 (lt_trans hst hc))]
        exact ih (x1, y1) (List.chain'_cons.1 hx).2 (List.chain'_cons.1 hy).2
          (fun q hq => hb q (List.mem_cons_of_mem _ hq)) (not_lt.1 hs1) hlt

theorem np_interp_strict (kn : List (ℚ × ℚ))
    (hx : List.Chain' (fun p q : ℚ × ℚ => p.1 < q.1) kn)
    (hy : List.Chain' (fun p q : ℚ × ℚ => p.2 < q.2) kn)
    (hb : ∀ q ∈ kn, q.2 ≤ 1) (s t : ℚ)
    (hfs : firstFst kn ≤ s) (hst : s < t) (htl : t ≤ lastFst kn) :
    np_interp kn s < np_interp kn t := by
  cases kn with
  | nil =>
    simp only [firstFst, lastFst] at hfs htl
    exact absurd (lt_of_le_of_lt hfs (lt_of_lt_of_le hst htl)) (lt_irrefl 0)
  | cons p rest =>
    have hfs2 : p.1 ≤ s := hfs
    simp only [np_interp]
    rw [if_neg (not_lt.2 hfs2), if_neg (not_lt.2 (le_trans hfs2 (le_of_lt hst)))]
    exact interpGo_strict s t p rest hx hy hb hfs2 hst htl


/- ------------------------------------------------------------------ -/
/- Decomposition of the ecdf knots.                                    -/
/- ------------------------------------------------------------------ -/

theorem cumsum_length (xs : List ℚ) : ∀ c : ℚ, (cumsum c xs).length = xs.length := by
  induction xs with
  | nil => intro c; rfl
  | cons x xs ih => intro c; rw [cumsum_cons]; simp [ih]

theorem ecdf_rle_branch (l : List ℚ) :
    (if l.length ≠ ((runs l).map Prod.snd).length then (runs l).map (fun r => (r.1 : ℚ))
      else List.replicate l.length 1) = (runs l).map (fun r => (r.1 : ℚ)) := by
  by_cases h : l.length ≠ ((runs l).map Prod.snd).length
  · rw [if_pos h]
  · rw [if_neg h]
    push_neg at h
    rw [List.length_map] at h
    have hall : ∀ a ∈ (runs l).map Prod.fst, a = 1 := by
      apply all_one_of_sum_eq_length
      · intro a ha
        obtain ⟨r, hr, rfl⟩ := List.mem_map.1 ha
        exact runs_length_pos l r hr
      · rw [runs_sum_lengths, List.length_map, h]
    symm
    rw [List.eq_replicate_iff]
    refine ⟨by rw [List.length_map, h], ?_⟩
    intro b hb
    obtain ⟨r, hr, rfl⟩ := List.mem_map.1 hb
    have h1 : r.1 = 1 := hall r.1 (List.mem_map_of_mem _ hr)
    rw [h1]
    norm_num

theorem getLast?_cons_of_ne_nil (a : ℚ) (l : List ℚ) (h : l ≠ []) :
    (a :: l).getLast? = l.getLast? := by
  cases l with
  | nil => exact absurd rfl h
  | cons b bs => rw [List.getLast?_cons_cons]

theorem np_unique_def (X : List ℚ) :
    np_unique X = (runs (npSort X)).map Prod.snd := rfl

theorem ecdfKnots_decomp (X : List ℚ) (hX : X ≠ []) (mn mx : Option ℚ) :
    ecdfKnots X mn mx
      = ecdfPre mn (np_unique X)
          ++ midKnots ((X.length : ℚ)) 0 (runs (npSort X))
          ++ ecdfPost mx (np_unique X) := by
  have hXune : np_unique X ≠ [] := np_unique_ne_nil X hX
  have hylen : (List.zipWith (fun cu l => (cu - l / 2) / ((X.length : ℚ)))
      (cumsum 0 ((runs (npSort X)).map (fun r => (r.1 : ℚ))))
      ((runs (npSort X)).map (fun r => (r.1 : ℚ)))).length
      = (np_unique X).length := by
    rw [List.length_zipWith, cumsum_length, Nat.min_self, np_unique, List.length_map,
      List.length_map]
  have hbase : (np_unique X).zip
      (List.zipWith (fun cu l => (cu - l / 2) / ((X.length : ℚ)))
        (cumsum 0 ((runs (npSort X)).map (fun r => (r.1 : ℚ))))
        ((runs (npSort X)).map (fun r => (r.1 : ℚ))))
      = midKnots ((X.length : ℚ)) 0 (runs (npSort X)) := by
    rw [np_unique]
    exact zip_heights_eq_midKnots _ _ 0
  cases mn with
  | none =>
    cases mx with
    | none =>
      simp only [ecdfKnots, ecdf_rle_branch]
      simp only [← np_unique_def]
      simp only [ecdfPre, ecdfPost, List.nil_append, List.append_nil]
      exact hbase
    | some b =>
      simp only [ecdfKnots, ecdf_rle_branch]
      simp only [← np_unique_def]
      simp only [ecdfPre, ecdfPost, List.nil_append]
      by_cases hb : (np_unique X).getLast? ≠ some b
      · rw [if_pos hb, if_pos hb, if_pos hb]
        rw [List.zip_append hylen.symm, hbase]
        rfl
      · rw [if_neg hb, if_neg hb, if_neg hb, List.append_nil]
        exact hbase
  | some a =>
    cases mx with
    | none =>
      simp only [ecdfKnots, ecdf_rle_branch]
      simp only [← np_unique_def]
      simp only [ecdfPre, ecdfPost, List.append_nil]
      by_cases ha : (np_unique X).head? ≠ some a
      · rw [if_pos ha, if_pos ha, if_pos ha]
        rw [List.zip_cons_cons, hbase]
        rfl
      · rw [if_neg ha, if_neg ha, if_neg ha, List.nil_append]
        exact hbase
    | some b =>
      simp only [ecdfKnots, ecdf_rle_branch]
      simp only [← np_unique_def]
      simp only [ecdfPre, ecdfPost]
      by_cases ha : (np_unique X).head? ≠ some a
      · rw [if_pos ha, if_pos ha, if_pos ha]
        rw [getLast?_cons_of_ne_nil a _ hXune]
        by_cases hb : (np_unique X).getLast? ≠ some b
        · rw [if_pos hb, if_pos hb, if_pos hb]
          have hlen2 : (a :: np_unique X).length
              = ((0 : ℚ) :: (List.zipWith (fun cu l => (cu - l / 2) / ((X.length : ℚ)))
                (cumsum 0 ((runs (npSort X)).map (fun r => (r.1 : ℚ))))
                ((runs (npSort X)).map (fun r => (r.1 : ℚ))))).length := by
            simp [hylen]
          rw [List.zip_append hlen2, List.zip_cons_cons, hbase]
          rfl
        · rw [if_neg hb, if_neg hb, if_neg hb]
          rw [List.zip_cons_cons, hbase]
          simp
      · rw [if_neg ha, if_neg ha, if_neg ha]
        by_cases hb : (np_unique X).getLast? ≠ some b
        · rw [if_pos hb, if_pos hb, if_pos hb]
          rw [List.zip_append hylen.symm, hbase]
          rfl
        · rw [if_neg hb, if_neg hb, if_neg hb, List.nil_append, List.append_nil]
          exact hbase


/- ------------------------------------------------------------------ -/
/- Head and last helpers for knot lists; sample min and max.           -/
/- ------------------------------------------------------------------ -/

theorem head?_map_fst (kn : List (ℚ × ℚ)) (h : kn ≠ []) :
    (kn.map Prod.fst).head? = some (firstFst kn) := by
  cases kn with
  | nil => exact absurd rfl h
  | cons p rest => rfl

theorem getLast?_map_fst (kn : List (ℚ × ℚ)) (h : kn ≠ []) :
    (kn.map Prod.fst).getLast? = some (lastFst kn) := by
  induction kn with
  | nil => exact absurd rfl h
  | cons p rest ih =>
    cases rest with
    | nil => rfl
    | cons q rest2 =>
      rw [List.map_cons, List.map_cons, List.getLast?_cons_cons, ← List.map_cons,
        lastFst_cons_cons]
      exact ih (by simp)

theorem head?_fst (kn : List (ℚ × ℚ)) (p : ℚ × ℚ) (h : kn.head? = some p) :
    p.1 = firstFst kn := by
  cases kn with
  | nil => simp at h
  | cons q rest =>
    simp only [List.head?_cons, Option.some.injEq] at h
    rw [← h]
    rfl

theorem getLast?_fst (kn : List (ℚ × ℚ)) : ∀ p, kn.getLast? = some p → p.1 = lastFst kn := by
  induction kn with
  | nil => intro p h; simp at h
  | cons q rest ih =>
    intro p h
    cases rest with
    | nil =>
      simp only [List.getLast?_singleton, Option.some.injEq] at h
      rw [← h]
      rfl
    | cons r rest2 =>
      rw [List.getLast?_cons_cons] at h
      rw [lastFst_cons_cons]
      exact ih p h

theorem mem_of_getLast?_q {α : Type} (kn : List α) : ∀ p, kn.getLast? = some p → p ∈ kn := by
  induction kn with
  | nil => intro p h; simp at h
  | cons q rest ih =>
    intro p h
    cases rest with
    | nil =>
      simp only [List.getLast?_singleton, Option.some.injEq] at h
      simp [h]
    | cons r rest2 =>
      rw [List.getLast?_cons_cons] at h
      exact List.mem_cons_of_mem _ (ih p h)

theorem head?_append_of_ne_nil (l l2 : List (ℚ × ℚ)) (h : l ≠ []) :
    (l ++ l2).head? = l.head? := by
  cases l with
  | nil => exact absurd rfl h
  | cons p rest => rfl

theorem foldl_min_le_init (xs : List ℚ) : ∀ a : ℚ, xs.foldl min a ≤ a := by
  induction xs with
  | nil => intro a; simp
  | cons x xs ih =>
    intro a
    calc xs.foldl min (min a x) ≤ min a x := ih (min a x)
    _ ≤ a := min_le_left a x

theorem foldl_min_le (xs : List ℚ) : ∀ (a x : ℚ), x ∈ xs → xs.foldl min a ≤ x := by
  induction xs with
  | nil => intro a x hx; simp at hx
  | cons y ys ih =>
    intro a x hx
    rcases List.mem_cons.1 hx with rfl | hx2
    · calc (x :: ys).foldl min a = ys.foldl min (min a x) := rfl
      _ ≤ min a x := foldl_min_le_init ys (min a x)
      _ ≤ x := min_le_right a x
    · exact ih (min a y) x hx2

theorem npMin_le (l : List ℚ) (x : ℚ) (hx : x ∈ l) : npMin l ≤ x := by
  cases l with
  | nil => simp at hx
  | cons a xs =>
    rcases List.mem_cons.1 hx with rfl | hx2
    · exact foldl_min_le_init xs x
    · exact foldl_min_le xs a x hx2

theorem le_foldl_max_init (xs : List ℚ) : ∀ a : ℚ, a ≤ xs.foldl max a := by
  induction xs with
  | nil => intro a; simp
  | cons x xs ih =>
    intro a
    calc a ≤ max a x := le_max_left a x
    _ ≤ xs.foldl max (max a x) := ih (max a x)

theorem le_foldl_max (xs : List ℚ) : ∀ (a x : ℚ), x ∈ xs → x ≤ xs.foldl max a := by
  induction xs with
  | nil => intro a x hx; simp at hx
  | cons y ys ih =>
    intro a x hx
    rcases List.mem_cons.1 hx with rfl | hx2
    · calc x ≤ max a x := le_max_right a x
      _ ≤ ys.foldl max (max a x) := le_foldl_max_init ys (max a x)
      _ = (x :: ys).foldl max a := rfl
    · exact ih (max a y) x hx2

theorem le_npMax (l : List ℚ) (x : ℚ) (hx : x ∈ l) : x ≤ npMax l := by
  cases l with
  | nil => simp at hx
  | cons a xs =>
    rcases List.mem_cons.1 hx with rfl | hx2
    · exact le_foldl_max_init xs x
    · exact le_foldl_max xs a x hx2

/- ------------------------------------------------------------------ -/
/- Assembling the full knot list of ecdf.                              -/
/- ------------------------------------------------------------------ -/

theorem knots_extend_spec (B : List (ℚ × ℚ)) (hBne : B ≠ [])
    (hchainX : List.Chain' (fun p q : ℚ × ℚ => p.1 < q.1) B)
    (hchainY : List.Chain' (fun p q : ℚ × ℚ => p.2 < q.2) B)
    (hbounds : ∀ p ∈ B, 0 < p.2 ∧ p.2 < 1)
    (pre post : List (ℚ × ℚ))
    (hpre : pre = [] ∨ ∃ a, pre = [(a, 0)] ∧ a < firstFst B)
    (hpost : post = [] ∨ ∃ b, post = [(b, 1)] ∧ lastFst B < b) :
    List.Chain' (fun p q : ℚ × ℚ => p.1 < q.1) (pre ++ B ++ post)
      ∧ List.Chain' (fun p q : ℚ × ℚ => p.2 < q.2) (pre ++ B ++ post)
      ∧ (∀ p ∈ pre ++ B ++ post, 0 ≤ p.2 ∧ p.2 ≤ 1) := by
  rw [List.append_assoc]
  have hBheadpost : (B ++ post).head? = B.head? := head?_append_of_ne_nil B post hBne
  have hX2 : List.Chain' (fun p q : ℚ × ℚ => p.1 < q.1) (B ++ post) := by
    rw [List.chain'_append]
    refine ⟨hchainX, ?_, ?_⟩
    · rcases hpost with rfl | ⟨b, rfl, hb⟩ <;> simp
    · intro x hx y hy
      rcases hpost with rfl | ⟨b, rfl, hb⟩
      · simp at hy
      · simp only [List.head?_cons, Option.mem_def, Option.some.injEq] at hy
        have hx1 : x.1 = lastFst B := getLast?_fst B x (Option.mem_def.1 hx)
        rw [← hy, hx1]
        exact hb
  have hY2 : List.Chain' (fun p q : ℚ × ℚ => p.2 < q.2) (B ++ post) := by
    rw [List.chain'_append]
    refine ⟨hchainY, ?_, ?_⟩
    · rcases hpost with rfl | ⟨b, rfl, hb⟩ <;> simp
    · intro x hx y hy
      rcases hpost with rfl | ⟨b, rfl, hb⟩
      · simp at hy
      · simp only [List.head?_cons, Option.mem_def, Option.some.injEq] at hy
        have hxB : x ∈ B := mem_of_getLast?_q B x (Option.mem_def.1 hx)
        have := (hbounds x hxB).2
        rw [← hy]
        exact this
  have hX3 : List.Chain' (fun p q : ℚ × ℚ => p.1 < q.1) (pre ++ (B ++ post)) := by
    rw [List.chain'_append]
    refine ⟨?_, hX2, ?_⟩
    · rcases hpre with rfl | ⟨a, rfl, ha⟩ <;> simp
    · intro x hx y hy
      rcases hpre with rfl | ⟨a, rfl, ha⟩
      · simp at hx
      · simp only [List.getLast?_singleton, Option.mem_def, Option.some.injEq] at hx
        rw [hBheadpost] at hy
        have hy1 : y.1 = firstFst B := head?_fst B y (Option.mem_def.1 hy)
        rw [← hx, hy1]
        exact ha
  have hY3 : List.Chain' (fun p q : ℚ × ℚ => p.2 < q.2) (pre ++ (B ++ post)) := by
    rw [List.chain'_append]
    refine ⟨?_, hY2, ?_⟩
    · rcases hpre with rfl | ⟨a, rfl, ha⟩ <;> simp
    · intro x hx y hy
      rcases hpre with rfl | ⟨a, rfl, ha⟩
      · simp at hx
      · simp only [List.getLast?_singleton, Option.mem_def, Option.some.injEq] at hx
        rw [hBheadpost] at hy
        have hyB : y ∈ B := List.mem_of_mem_head? hy
        have := (hbounds y hyB).1
        rw [← hx]
        exact this
  refine ⟨hX3, hY3, ?_⟩
  intro p hp
  rcases List.mem_append.1 hp with hp1 | hp2
  · rcases hpre with rfl | ⟨a, rfl, ha⟩
    · simp at hp1
    · simp only [List.mem_singleton] at hp1
      rw [hp1]
      norm_num
  · rcases List.mem_append.1 hp2 with hpB | hp3
    · have := hbounds p hpB
      exact ⟨le_of_lt this.1, le_of_lt this.2⟩
    · rcases hpost with rfl | ⟨b, rfl, hb⟩
      · simp at hp3
      · simp only [List.mem_singleton] at hp3
        rw [hp3]
        norm_num


theorem ecdf_knots_spec (X : List ℚ) (mn mx : Option ℚ) (hX : X ≠ [])
    (hmn : ∀ a, mn = some a → ∀ x ∈ X, a ≤ x)
    (hmx : ∀ b, mx = some b → ∀ x ∈ X, x ≤ b) :
    List.Chain' (fun p q : ℚ × ℚ => p.1 < q.1) (ecdfKnots X mn mx)
      ∧ List.Chain' (fun p q : ℚ × ℚ => p.2 < q.2) (ecdfKnots X mn mx)
      ∧ (∀ p ∈ ecdfKnots X mn mx, 0 ≤ p.2 ∧ p.2 ≤ 1)
      ∧ (∀ v ∈ X, (v, (((X.countP (fun u => decide (u < v)) : ℚ)
            + (X.count v : ℚ) / 2) / (X.length : ℚ))) ∈ ecdfKnots X mn mx) := by
  rw [ecdfKnots_decomp X hX mn mx]
  set B := midKnots ((X.length : ℚ)) 0 (runs (npSort X)) with hBdef
  have hrunsne : runs (npSort X) ≠ [] := by
    rw [ne_eq, runs_eq_nil_iff]
    intro h
    have hp := npSort_perm X
    rw [h] at hp
    exact hX hp.symm.eq_nil
  have hn : (0 : ℚ) < (X.length : ℚ) := by
    have h0 : 0 < X.length := List.length_pos.2 hX
    exact_mod_cast h0
  have hBne : B ≠ [] := by
    intro h
    have hl := midKnots_length ((X.length : ℚ)) 0 (runs (npSort X))
    rw [← hBdef, h] at hl
    simp only [List.length_nil] at hl
    exact hrunsne (List.length_eq_zero.1 hl.symm)
  have hmapfst : B.map Prod.fst = np_unique X := by
    rw [hBdef, midKnots_map_fst, np_unique_def]
  have hchainXB : List.Chain' (fun p q : ℚ × ℚ => p.1 < q.1) B := by
    have hv := runs_values_chain (npSort X) (npSort_sorted X)
    rw [← midKnots_map_fst ((X.length : ℚ)) 0 (runs (npSort X))] at hv
    rw [hBdef]
    exact (List.chain'_map Prod.fst).1 hv
  have hchainYB : List.Chain' (fun p q : ℚ × ℚ => p.2 < q.2) B :=
    midKnots_chainY ((X.length : ℚ)) hn (runs (npSort X)) 0 (runs_length_pos (npSort X))
  have hboundsB : ∀ p ∈ B, 0 < p.2 ∧ p.2 < 1 := by
    rw [hBdef]
    apply midKnots_bounds ((X.length : ℚ)) hn (runs (npSort X)) 0 le_rfl
      (runs_length_pos (npSort X))
    rw [runs_sum_lengths, (npSort_perm X).length_eq]
    norm_num
  have hhead : (np_unique X).head? = some (firstFst B) := by
    rw [← hmapfst]
    exact head?_map_fst _ hBne
  have hlast : (np_unique X).getLast? = some (lastFst B) := by
    rw [← hmapfst]
    exact getLast?_map_fst _ hBne
  have hfirstX : firstFst B ∈ X := by
    have h1 : firstFst B ∈ np_unique X := List.mem_of_mem_head? (Option.mem_def.2 hhead)
    rw [np_unique_def, runs_values_mem] at h1
    exact (npSort_perm X).mem_iff.1 h1
  have hlastX : lastFst B ∈ X := by
    have h1 : lastFst B ∈ np_unique X := mem_of_getLast?_q _ _ hlast
    rw [np_unique_def, runs_values_mem] at h1
    exact (npSort_perm X).mem_iff.1 h1
  have hpre : ecdfPre mn (np_unique X) = []
      ∨ ∃ a, ecdfPre mn (np_unique X) = [(a, 0)] ∧ a < firstFst B := by
    cases mn with
    | none => exact Or.inl rfl
    | some a =>
      by_cases ha : (np_unique X).head? ≠ some a
      · refine Or.inr ⟨a, ?_, ?_⟩
        · simp only [ecdfPre]
          rw [if_pos ha]
        · have hle : a ≤ firstFst B := hmn a rfl (firstFst B) hfirstX
          have hne : firstFst B ≠ a := by
            intro hc
            apply ha
            rw [hhead, hc]
          exact lt_of_le_of_ne hle (fun hc => hne hc.symm)
      · refine Or.inl ?_
        simp only [ecdfPre]
        rw [if_neg ha]
  have hpost : ecdfPost mx (np_unique X) = []
      ∨ ∃ b, ecdfPost mx (np_unique X) = [(b, 1)] ∧ lastFst B < b := by
    cases mx with
    | none => exact Or.inl rfl
    | some b =>
      by_cases hb : (np_unique X).getLast? ≠ some b
      · refine Or.inr ⟨b, ?_, ?_⟩
        · simp only [ecdfPost]
          rw [if_pos hb]
        · have hle : lastFst B ≤ b := hmx b rfl (lastFst B) hlastX
          have hne : lastFst B ≠ b := by
            intro hc
            apply hb
            rw [hlast, hc]
          exact lt_of_le_of_ne hle hne
      · refine Or.inl ?_
        simp only [ecdfPost]
        rw [if_neg hb]
  obtain ⟨hXfull, hYfull, hBfull⟩ :=
    knots_extend_spec B hBne hchainXB hchainYB hboundsB _ _ hpre hpost
  refine ⟨hXfull, hYfull, hBfull, ?_⟩
  intro v hv
  have hvs : v ∈ npSort X := (npSort_perm X).mem_iff.2 hv
  have h0 := midKnots_mem_of_mem ((X.length : ℚ)) (npSort X).length (npSort X)
    le_rfl (npSort_sorted X) 0 v hvs
  have hcp : (npSort X).countP (fun u => decide (u < v))
      = X.countP (fun u => decide (u < v)) := (npSort_perm X).countP_eq _
  have hc : (npSort X).count v = X.count v := (npSort_perm X).count_eq v
  rw [hcp, hc, zero_add] at h0
  rw [← hBdef] at h0
  exact List.mem_append.2 (Or.inl (List.mem_append.2 (Or.inr h0)))


theorem lastFst_append_q (l1 l2 : List (ℚ × ℚ)) (h : l2 ≠ []) :
    lastFst (l1 ++ l2) = lastFst l2 := by
  induction l1 with
  | nil => rfl
  | cons p rest ih =>
    rw [List.cons_append]
    have hne : rest ++ l2 ≠ [] := by
      intro hc
      exact h (List.append_eq_nil.1 hc).2
    cases hr : rest ++ l2 with
    | nil => exact absurd hr hne
    | cons q rl =>
      rw [lastFst_cons_cons, ← hr]
      exact ih

theorem ecdf_base_ne_nil (X : List ℚ) (hX : X ≠ []) :
    midKnots ((X.length : ℚ)) 0 (runs (npSort X)) ≠ [] := by
  intro h
  have hl := midKnots_length ((X.length : ℚ)) 0 (runs (npSort X))
  rw [h] at hl
  simp only [List.length_nil] at hl
  have hrunsne : runs (npSort X) ≠ [] := by
    rw [ne_eq, runs_eq_nil_iff]
    intro h2
    have hp := npSort_perm X
    rw [h2] at hp
    exact hX hp.symm.eq_nil
  exact hrunsne (List.length_eq_zero.1 hl.symm)

theorem ecdf_base_getLast (X : List ℚ) (hX : X ≠ []) :
    (np_unique X).getLast?
      = some (lastFst (midKnots ((X.length : ℚ)) 0 (runs (npSort X)))) := by
  have hmapfst : (midKnots ((X.length : ℚ)) 0 (runs (npSort X))).map Prod.fst
      = np_unique X := by
    rw [midKnots_map_fst, np_unique_def]
  rw [← hmapfst]
  exact getLast?_map_fst _ (ecdf_base_ne_nil X hX)

theorem ecdf_knots_first (X : List ℚ) (hX : X ≠ []) (a : ℚ) (mx : Option ℚ)
    (ha : ∀ x ∈ X, a < x) :
    firstFst (ecdfKnots X (some a) mx) = a := by
  rw [ecdfKnots_decomp X hX (some a) mx]
  have cond : (np_unique X).head? ≠ some a := by
    intro hc
    have hmem : a ∈ np_unique X := List.mem_of_mem_head? (Option.mem_def.2 hc)
    rw [np_unique_def, runs_values_mem] at hmem
    have haX : a ∈ X := (npSort_perm X).mem_iff.1 hmem
    exact lt_irrefl a (ha a haX)
  have hpre : ecdfPre (some a) (np_unique X) = [(a, 0)] := by
    simp only [ecdfPre]
    rw [if_pos cond]
  rw [hpre]
  rfl

theorem ecdf_knots_last (X : List ℚ) (hX : X ≠ []) (mn : Option ℚ) (b : ℚ) :
    lastFst (ecdfKnots X mn (some b)) = b := by
  rw [ecdfKnots_decomp X hX mn (some b)]
  by_cases hcond : (np_unique X).getLast? ≠ some b
  · have hpost : ecdfPost (some b) (np_unique X) = [(b, 1)] := by
      simp only [ecdfPost]
      rw [if_pos hcond]
    rw [hpost, lastFst_append_q _ _ (by simp)]
    rfl
  · push_neg at hcond
    have hpost : ecdfPost (some b) (np_unique X) = [] := by
      simp only [ecdfPost]
      rw [if_neg (by simpa using hcond)]
    rw [hpost, List.append_nil,
      lastFst_append_q _ _ (ecdf_base_ne_nil X hX)]
    have h2 := ecdf_base_getLast X hX
    rw [hcond] at h2
    exact (Option.some.injEq _ _ ▸ h2).symm

theorem ecdf_apply (X : List ℚ) (Xmin Xmax : Option ℚ) (t : ℚ) :
    ecdf X Xmin Xmax t = np_interp (ecdfKnots X Xmin Xmax) t := rfl


/- ------------------------------------------------------------------ -/
/- Claim theorems.                                                     -/
/- ------------------------------------------------------------------ -/

/-- Claim C2: for every sample and optional domain-extension bounds, the
    function returned by ecdf is monotone non-decreasing, bounded in [0, 1],
    and at a sample value of multiplicity m whose run occupies cumulative
    ranks [k, k + m) in the sorted sample of size n it evaluates to exactly
    (k + m/2)/n, where k is the number of sample points strictly below the
    value and m its multiplicity. -/
theorem ecdf_function_properties (X : List ℚ) (Xmin Xmax : Option ℚ)
    (hX : X ≠ [])
    (hmin : ∀ a, Xmin = some a → ∀ x ∈ X, a ≤ x)
    (hmax : ∀ b, Xmax = some b → ∀ x ∈ X, x ≤ b) :
    (∀ s t : ℚ, s ≤ t → ecdf X Xmin Xmax s ≤ ecdf X Xmin Xmax t)
      ∧ (∀ t : ℚ, 0 ≤ ecdf X Xmin Xmax t ∧ ecdf X Xmin Xmax t ≤ 1)
      ∧ (∀ v ∈ X, ecdf X Xmin Xmax v
          = ((X.countP (fun u => decide (u < v)) : ℚ) + (X.count v : ℚ) / 2)
              / (X.length : ℚ)) := by
  obtain ⟨hcx, hcy, hbnd, hmem⟩ := ecdf_knots_spec X Xmin Xmax hX hmin hmax
  have hcy2 : List.Chain' (fun p q : ℚ × ℚ => p.2 ≤ q.2) (ecdfKnots X Xmin Xmax) :=
    hcy.imp (fun a b hab => le_of_lt hab)
  refine ⟨?_, ?_, ?_⟩
  · intro s t hst
    exact np_interp_mono _ hcx hcy2 hbnd s t hst
  · intro t
    exact np_interp_bounds _ hcx hcy2 hbnd t
  · intro v hv
    exact np_interp_knot _ hcx v _ (hmem v hv)

theorem ecdf_function_properties_witness :
    ([(0 : ℚ), 0, 1] ≠ []) ∧
      ((∀ s t : ℚ, s ≤ t → ecdf [0, 0, 1] none none s ≤ ecdf [0, 0, 1] none none t)
        ∧ (∀ t : ℚ, 0 ≤ ecdf [0, 0, 1] none none t ∧ ecdf [0, 0, 1] none none t ≤ 1)
        ∧ (∀ v ∈ [(0 : ℚ), 0, 1], ecdf [0, 0, 1] none none v
            = (([(0 : ℚ), 0, 1].countP (fun u => decide (u < v)) : ℚ)
                + ([(0 : ℚ), 0, 1].count v : ℚ) / 2)
                / (([(0 : ℚ), 0, 1] : List ℚ).length : ℚ))) :=
  ⟨by decide, ecdf_function_properties [0, 0, 1] none none (by decide)
    (fun a ha => Option.noConfusion ha) (fun b hb => Option.noConfusion hb)⟩

/-- Claim C10: for a positive epsilon no larger than the derived default,
    under exact arithmetic the finite differences dP are non-negative and
    dQ is strictly positive at every point of X, every masked log receives a
    strictly positive argument, and the dQ == 0 instability branch is
    unreachable (the count of removed points is zero). -/
theorem kl_div_differences_positive (X Y : List ℚ) (eps : ℚ)
    (hX : X ≠ []) (hY : Y ≠ []) (heps : 0 < eps)
    (hdef : ∀ e, eps_default X Y = some e → eps ≤ e) :
    (∀ x ∈ X, 0 ≤ kl_dP X eps x ∧ 0 < kl_dQ X Y eps x)
      ∧ (∀ x ∈ X, kl_dP X eps x ≠ 0 ∧ kl_dQ X Y eps x ≠ 0 →
          0 < kl_dP X eps x / kl_dQ X Y eps x)
      ∧ X.countP (fun x => decide (kl_dQ X Y eps x = 0)) = 0 := by
  obtain ⟨hPx, hPy, hPb, -⟩ := ecdf_knots_spec X none none hX
    (fun a ha => Option.noConfusion ha) (fun b hb => Option.noConfusion hb)
  have hPy2 : List.Chain' (fun p q : ℚ × ℚ => p.2 ≤ q.2) (ecdfKnots X none none) :=
    hPy.imp (fun a b hab => le_of_lt hab)
  have hdP_nonneg : ∀ x ∈ X, 0 ≤ kl_dP X eps x := by
    intro x hx
    have hle : ecdf X none none (x - eps) ≤ ecdf X none none x :=
      np_interp_mono _ hPx hPy2 hPb (x - eps) x (by linarith)
    unfold kl_dP
    linarith
  have hminlt : ∀ y ∈ Y, tot_min X Y eps < y := by
    intro y hy
    have h1 : npMin (X ++ Y) ≤ y := npMin_le _ y (List.mem_append.2 (Or.inr hy))
    unfold tot_min
    linarith
  have hmaxge : ∀ y ∈ Y, y ≤ tot_max X Y := by
    intro y hy
    exact le_npMax _ y (List.mem_append.2 (Or.inr hy))
  obtain ⟨hQx, hQy, hQb, -⟩ := ecdf_knots_spec Y (some (tot_min X Y eps))
    (some (tot_max X Y)) hY
    (fun a ha y hy => by cases ha; exact le_of_lt (hminlt y hy))
    (fun b hb y hy => by cases hb; exact hmaxge y hy)
  have hfirst : firstFst (ecdfKnots Y (some (tot_min X Y eps)) (some (tot_max X Y)))
      = tot_min X Y eps := ecdf_knots_first Y hY _ _ hminlt
  have hlast : lastFst (ecdfKnots Y (some (tot_min X Y eps)) (some (tot_max X Y)))
      = tot_max X Y := ecdf_knots_last Y hY _ _
  have hdQpos : ∀ x ∈ X, 0 < kl_dQ X Y eps x := by
    intro x hx
    have h1 : npMin (X ++ Y) ≤ x := npMin_le _ x (List.mem_append.2 (Or.inl hx))
    have h2 : x ≤ npMax (X ++ Y) := le_npMax _ x (List.mem_append.2 (Or.inl hx))
    have hs : firstFst (ecdfKnots Y (some (tot_min X Y eps)) (some (tot_max X Y)))
        ≤ x - eps := by
      rw [hfirst]
      unfold tot_min
      linarith
    have htl : x ≤ lastFst (ecdfKnots Y (some (tot_min X Y eps)) (some (tot_max X Y))) := by
      rw [hlast]
      unfold tot_max
      exact h2
    have hlt : ecdf Y (some (tot_min X Y eps)) (some (tot_max X Y)) (x - eps)
        < ecdf Y (some (tot_min X Y eps)) (some (tot_max X Y)) x :=
      np_interp_strict _ hQx hQy (fun q hq => (hQb q hq).2) (x - eps) x hs
        (by linarith) htl
    unfold kl_dQ
    linarith
  refine ⟨?_, ?_, ?_⟩
  · intro x hx
    exact ⟨hdP_nonneg x hx, hdQpos x hx⟩
  · intro x hx hmask
    have h1 : 0 < kl_dP X eps x :=
      lt_of_le_of_ne (hdP_nonneg x hx) (Ne.symm hmask.1)
    exact div_pos h1 (hdQpos x hx)
  · rw [List.countP_eq_zero]
    intro x hx
    simp only [decide_eq_true_eq]
    exact ne_of_gt (hdQpos x hx)

theorem kl_div_differences_positive_witness :
    ([(0 : ℚ), 1] ≠ [] ∧ (0 : ℚ) < 1 / 2
        ∧ (∀ e, eps_default [0, 1] [0, 1] = some e → (1 / 2 : ℚ) ≤ e)) ∧
      ((∀ x ∈ [(0 : ℚ), 1], 0 ≤ kl_dP [0, 1] (1 / 2) x ∧ 0 < kl_dQ [0, 1] [0, 1] (1 / 2) x)
        ∧ (∀ x ∈ [(0 : ℚ), 1], kl_dP [0, 1] (1 / 2) x ≠ 0 ∧ kl_dQ [0, 1] [0, 1] (1 / 2) x ≠ 0 →
            0 < kl_dP [0, 1] (1 / 2) x / kl_dQ [0, 1] [0, 1] (1 / 2) x)
        ∧ [(0 : ℚ), 1].countP (fun x => decide (kl_dQ [0, 1] [0, 1] (1 / 2) x = 0)) = 0) := by
  have hdefault : eps_default [(0 : ℚ), 1] [(0 : ℚ), 1] = some (1 / 2) := by
    norm_num [eps_default, np_unique, npSort, runs, diffsAdj,
      List.insertionSort, List.orderedInsert]
  have hdef : ∀ e, eps_default [(0 : ℚ), 1] [(0 : ℚ), 1] = some e → (1 / 2 : ℚ) ≤ e := by
    intro e he
    rw [hdefault] at he
    have h2 : (1 / 2 : ℚ) = e := Option.some.injEq _ _ ▸ he
    rw [← h2]
  exact ⟨⟨by decide, by norm_num, hdef⟩,
    kl_div_differences_positive [0, 1] [0, 1] (1 / 2) (by decide) (by decide)
      (by norm_num) hdef⟩

/-- Claim C7: when every finite difference dQ over the points of X is zero
    (total degeneracy), kl_div does not fail and returns exactly 0 after the
    final flooring: the masked sum is empty, the raw result is -1, and the
    floor produces 0. -/
theorem kl_div_total_degeneracy (X Y : List ℚ) (eps : ℚ)
    (hX : X ≠ []) (hY : Y ≠ []) (hdeg : ∀ x ∈ X, kl_dQ X Y eps x = 0) :
    kl_div X Y eps = 0 := by
  unfold kl_div
  have hfilter : X.filter (kl_mask X Y eps) = [] := by
    rw [List.filter_eq_nil_iff]
    intro x hx
    unfold kl_mask
    simp only [decide_eq_true_eq, not_and, ne_eq, not_not]
    intro h1
    exact hdeg x hx
  rw [hfilter]
  simp only [List.map_nil, List.sum_nil, List.length_nil, Nat.zero_add, zero_div,
    zero_sub]
  exact max_eq_right (by norm_num)

theorem kl_div_total_degeneracy_witness :
    ([(0 : ℚ)] ≠ [] ∧ (∀ x ∈ [(0 : ℚ)], kl_dQ [0] [0] 0 x = 0)) ∧
      kl_div [0] [0] 0 = 0 := by
  have hdeg : ∀ x ∈ [(0 : ℚ)], kl_dQ [0] [0] 0 x = 0 := by
    intro x hx
    simp only [List.mem_singleton] at hx
    subst hx
    norm_num [kl_dQ, ecdf, ecdfKnots, np_interp, interpGo, npSort, runs, cumsum,
      tot_min, tot_max, npMin, npMax, List.insertionSort, List.orderedInsert]
  exact ⟨⟨by decide, hdeg⟩, kl_div_total_degeneracy [0] [0] 0 (by decide) (by decide) hdeg⟩

/-- Claim C1: for non-empty samples and positive epsilon, kl_div returns
    max(0, S/n - 1) where S is the sum of log(dP/dQ) over exactly the points
    of X with dP ≠ 0 and dQ ≠ 0, and n counts those points plus all points
    with dP = 0 (which contribute zero to the sum but are included in n). -/
theorem kl_div_perez_cruz_formula (X Y : List ℚ) (eps : ℚ)
    (hX : X ≠ []) (hY : Y ≠ []) (heps : 0 < eps) :
    kl_div X Y eps
      = max 0 (((X.filter (fun x => decide (kl_dP X eps x ≠ 0 ∧ kl_dQ X Y eps x ≠ 0))).map
            (fun x => Real.log ((kl_dP X eps x / kl_dQ X Y eps x : ℚ) : ℝ))).sum
          / ((X.countP (fun x => decide (kl_dP X eps x ≠ 0 ∧ kl_dQ X Y eps x ≠ 0))
              + X.countP (fun x => decide (kl_dP X eps x = 0)) : ℕ) : ℝ) - 1) := by
  unfold kl_div
  rw [max_comm, List.map_map, List.length_map, ← List.countP_eq_length_filter]
  rfl

theorem kl_div_perez_cruz_formula_witness :
    ([(0 : ℚ), 1] ≠ [] ∧ (0 : ℚ) < 1) ∧
      kl_div [0, 1] [0, 1] 1
        = max 0 ((([(0 : ℚ), 1].filter
              (fun x => decide (kl_dP [0, 1] 1 x ≠ 0 ∧ kl_dQ [0, 1] [0, 1] 1 x ≠ 0))).map
              (fun x => Real.log ((kl_dP [0, 1] 1 x / kl_dQ [0, 1] [0, 1] 1 x : ℚ) : ℝ))).sum
            / (([(0 : ℚ), 1].countP
                (fun x => decide (kl_dP [0, 1] 1 x ≠ 0 ∧ kl_dQ [0, 1] [0, 1] 1 x ≠ 0))
                + [(0 : ℚ), 1].countP (fun x => decide (kl_dP [0, 1] 1 x = 0)) : ℕ) : ℝ) - 1) :=
  ⟨⟨by decide, by decide⟩,
    kl_div_perez_cruz_formula [0, 1] [0, 1] 1 (by decide) (by decide) (by decide)⟩


/-- Claim C9: for every sorted input, the rle outputs reconstruct the input
    exactly when each value is repeated according to its run length; the run
    lengths are positive, they sum to the input length, and the values are
    strictly increasing. -/
theorem rle_round_trip (l : List ℚ) (hl : List.Sorted (· ≤ ·) l) :
    ∀ z p v, rle l = some (z, p, v) →
      runDecode z v = l
        ∧ (∀ k ∈ z, 0 < k)
        ∧ z.sum = l.length
        ∧ v.Chain' (· < ·) := by
  intro z p v h
  unfold rle at h
  by_cases hemp : l = []
  · rw [if_pos hemp] at h
    exact Option.noConfusion h
  · rw [if_neg hemp] at h
    simp only [Option.some.injEq, Prod.mk.injEq] at h
    obtain ⟨hz, -, hv⟩ := h
    subst hz
    subst hv
    refine ⟨?_, ?_, ?_, ?_⟩
    · unfold runDecode
      rw [List.zipWith_map, List.zipWith_same]
      exact runs_flatten l
    · intro k hk
      obtain ⟨r, hr, rfl⟩ := List.mem_map.1 hk
      exact runs_length_pos l r hr
    · exact runs_sum_lengths l
    · exact runs_values_chain l hl

theorem rle_round_trip_witness :
    (List.Sorted (· ≤ ·) [(1 : ℚ), 1, 2]
        ∧ rle [(1 : ℚ), 1, 2] = some ([2, 1], [0, 2], [1, 2])) ∧
      (runDecode [2, 1] [(1 : ℚ), 2] = [(1 : ℚ), 1, 2]
        ∧ (∀ k ∈ [2, 1], 0 < k)
        ∧ [2, 1].sum = ([(1 : ℚ), 1, 2] : List ℚ).length
        ∧ ([(1 : ℚ), 2] : List ℚ).Chain' (· < ·)) :=
  ⟨⟨by decide, by decide⟩,
    rle_round_trip [1, 1, 2] (by decide) [2, 1] [0, 2] [1, 2] (by decide)⟩

/-- Claim C3: mutual_info_classif_mixed returns mi_d + (1 - mean(x_d)) * mi_c
    where x_d is the indicator that x equals the special code (or is null
    when it is omitted), (x_c, y_c) are the pairing-preserving subsequences
    where the indicator is 0, mi_d is the base estimator on (x_d, y) with
    discrete=true, and mi_c is the base estimator on (x_c, y_c) with
    discrete=false. -/
theorem mutual_info_classif_mixed_formula
    (mi : List (Option ℚ) → List ℚ → Bool → ℝ)
    (x : List (Option ℚ)) (y : List ℚ) (special_code : Option ℚ)
    (hlen : x.length = y.length) (hx : x ≠ []) :
    mutual_info_classif_mixed mi x y special_code
      = mi ((x.map (x_indicator special_code)).map (fun v => some v)) y true
        + (1 - (x.map (x_indicator special_code)).sum
            / ((x.map (x_indicator special_code)).length : ℚ))
          * mi (((x.zip y).filter
                (fun p => decide (x_indicator special_code p.1 = 0))).map Prod.fst)
              (((x.zip y).filter
                (fun p => decide (x_indicator special_code p.1 = 0))).map Prod.snd)
              false := rfl

theorem mutual_info_classif_mixed_formula_witness :
    (([some (0 : ℚ), none] : List (Option ℚ)).length = ([(0 : ℚ), 1] : List ℚ).length
        ∧ ([some (0 : ℚ), none] : List (Option ℚ)) ≠ []) ∧
      mutual_info_classif_mixed (fun _ _ _ => (0 : ℝ)) [some (0 : ℚ), none] [0, 1] none
        = (fun _ _ _ => (0 : ℝ))
            ((([some (0 : ℚ), none] : List (Option ℚ)).map (x_indicator none)).map
              (fun v => some v)) [0, 1] true
          + (1 - (([some (0 : ℚ), none] : List (Option ℚ)).map (x_indicator none)).sum
              / ((([some (0 : ℚ), none] : List (Option ℚ)).map (x_indicator none)).length : ℚ))
            * (fun _ _ _ => (0 : ℝ))
                (((([some (0 : ℚ), none] : List (Option ℚ)).zip ([(0 : ℚ), 1] : List ℚ)).filter
                  (fun p => decide (x_indicator none p.1 = 0))).map Prod.fst)
                (((([some (0 : ℚ), none] : List (Option ℚ)).zip ([(0 : ℚ), 1] : List ℚ)).filter
                  (fun p => decide (x_indicator none p.1 = 0))).map Prod.snd)
                false :=
  ⟨⟨by decide, by decide⟩,
    mutual_info_classif_mixed_formula (fun _ _ _ => (0 : ℝ)) [some 0, none] [0, 1] none
      (by decide) (by decide)⟩

/-- Claim C6: in kl_div_bin a bin with zero count under Y contributes nothing
    to the result (it is skipped, never an infinite or undefined log-ratio);
    any other bin contributes exactly p_i log(p_i/q_i) with p_i and q_i the
    empirical bin frequencies; the accumulated sum is floored at 0. -/
theorem kl_div_bin_contributions (binT : ℚ → ℕ) (n_bins : ℕ) (X Y : List ℚ)
    (hX : X ≠ []) (hY : Y ≠ []) :
    kl_div_bin binT n_bins X Y
        = max 0 (((List.range n_bins).map (binContrib binT X Y)).sum)
      ∧ (∀ i, (Y.map binT).count i = 0 → binContrib binT X Y i = 0)
      ∧ (∀ i, (Y.map binT).count i ≠ 0 → binContrib binT X Y i
          = (((X.map binT).count i : ℝ) / (X.length : ℝ))
            * Real.log ((((X.map binT).count i : ℝ) / (X.length : ℝ))
                / (((Y.map binT).count i : ℝ) / (Y.length : ℝ)))) := by
  refine ⟨rfl, ?_, ?_⟩
  · intro i h
    simp only [binContrib]
    rw [if_pos h]
  · intro i h
    simp only [binContrib]
    rw [if_neg h]

theorem kl_div_bin_contributions_witness :
    (([(0 : ℚ), 1] : List ℚ) ≠ [] ∧ ([(0 : ℚ)] : List ℚ) ≠ []) ∧
      (kl_div_bin (fun q => if q < 1 then 0 else 1) 2 [0, 1] [0]
          = max 0 (((List.range 2).map
              (binContrib (fun q => if q < 1 then 0 else 1) [0, 1] [0])).sum)
        ∧ (∀ i, (([(0 : ℚ)] : List ℚ).map (fun q => if q < 1 then 0 else 1)).count i = 0 →
            binContrib (fun q => if q < 1 then 0 else 1) [0, 1] [0] i = 0)
        ∧ (∀ i, (([(0 : ℚ)] : List ℚ).map (fun q => if q < 1 then 0 else 1)).count i ≠ 0 →
            binContrib (fun q => if q < 1 then 0 else 1) [0, 1] [0] i
              = (((([(0 : ℚ), 1] : List ℚ).map (fun q => if q < 1 then 0 else 1)).count i : ℝ)
                  / (([(0 : ℚ), 1] : List ℚ).length : ℝ))
                * Real.log (((((([(0 : ℚ), 1] : List ℚ)).map
                      (fun q => if q < 1 then 0 else 1)).count i : ℝ)
                    / (([(0 : ℚ), 1] : List ℚ).length : ℝ))
                  / (((([(0 : ℚ)] : List ℚ).map (fun q => if q < 1 then 0 else 1)).count i : ℝ)
                    / (([(0 : ℚ)] : List ℚ).length : ℝ))))) :=
  ⟨⟨by decide, by decide⟩,
    kl_div_bin_contributions (fun q => if q < 1 then 0 else 1) 2 [0, 1] [0]
      (by decide) (by decide)⟩

/-- Claim C4: each of the three KL estimators returns a non-negative value on
    the inputs it accepts: kl_div and kl_div_bin floor their results at 0,
    and scipy_estimator floors at 0 whenever it returns (its assert passes,
    N1 is not 1, and the k-th neighbours exist). -/
theorem kl_estimators_nonneg :
    (∀ (X Y : List ℚ) (eps : ℚ), X ≠ [] → Y ≠ [] → 0 ≤ eps → 0 ≤ kl_div X Y eps)
      ∧ (∀ (binT : ℚ → ℕ) (n_bins : ℕ) (X Y : List ℚ), 0 ≤ kl_div_bin binT n_bins X Y)
      ∧ (∀ (s1 s2 : List (List ℚ)) (k : ℕ), sample_shapes_ok s1 s2 = true →
          s1.length ≠ 1 → 1 ≤ k → k ≤ s2.length → k + 1 ≤ s1.length →
          ∃ v, scipy_estimator s1 s2 k = some v ∧ 0 ≤ v) := by
  refine ⟨?_, ?_, ?_⟩
  · intro X Y eps _ _ _
    unfold kl_div
    exact le_max_right _ _
  · intro binT n_bins X Y
    unfold kl_div_bin
    exact le_max_left _ _
  · intro s1 s2 k hshape hn1 _ _ _
    simp only [scipy_estimator]
    rw [if_neg (by simp [hshape]), if_neg hn1]
    exact ⟨_, rfl, le_max_right _ _⟩

theorem kl_estimators_nonneg_witness :
    (([(0 : ℚ)] : List ℚ) ≠ [] ∧ (0 : ℚ) ≤ 0
        ∧ sample_shapes_ok [[(0 : ℚ)], [1]] [[(0 : ℚ)]] = true
        ∧ ([[(0 : ℚ)], [1]] : List (List ℚ)).length ≠ 1) ∧
      (0 ≤ kl_div [0] [0] 0
        ∧ 0 ≤ kl_div_bin (fun _ => 0) 1 [0] [0]
        ∧ ∃ v, scipy_estimator [[(0 : ℚ)], [1]] [[(0 : ℚ)]] 1 = some v ∧ 0 ≤ v) :=
  ⟨⟨by decide, by decide, by decide, by decide⟩,
    kl_estimators_nonneg.1 [0] [0] 0 (by decide) (by decide) (by decide),
    kl_estimators_nonneg.2.1 (fun _ => 0) 1 [0] [0],
    kl_estimators_nonneg.2.2 [[(0 : ℚ)], [1]] [[(0 : ℚ)]] 1 (by decide) (by decide)
      (by decide) (by decide) (by decide)⟩


theorem take_getLastD (l : List ℚ) (k : ℕ) (hk : 1 ≤ k) (hkl : k ≤ l.length) :
    (l.take k).getLastD 0 = l.getD (k - 1) 0 := by
  rw [List.getLastD_eq_getLast?, List.getLast?_eq_getElem?]
  have hlen : (l.take k).length = k := by
    rw [List.length_take]
    omega
  rw [hlen, List.getElem?_take_of_lt (by omega : k - 1 < k), List.getD_eq_getElem?_getD]

theorem take_one_headD (l : List ℚ) : (l.take 1).headD 0 = l.getD 0 0 := by
  cases l with
  | nil => rfl
  | cons a as => rfl

theorem nnSqSorted_length (s : List (List ℚ)) (p : List ℚ) :
    (nnSqSorted s p).length = s.length := by
  unfold nnSqSorted npSort
  rw [(List.perm_insertionSort _ _).length_eq, List.length_map]

/-- Claim C5: for samples of identical dimensionality with at least two
    points in S1 and existing k-th neighbours, scipy_estimator returns
    max(0, log(m/(n-1)) + (d/n) * sum over S1 of log(nu_d/rho_d)) with nu_d
    the distance to the k-th nearest neighbour in S2 and rho_d the distance
    to the k-th nearest neighbour among the other points of S1, obtained by
    querying k+1 neighbours and taking the last; the k = 1 and k > 1
    branches reduce to this same per-point formula. -/
theorem scipy_estimator_wang_formula (s1 s2 : List (List ℚ)) (k : ℕ)
    (hshape : sample_shapes_ok s1 s2 = true) (hn : 2 ≤ s1.length) (hk : 1 ≤ k)
    (hkm : k ≤ s2.length) (hkn : k + 1 ≤ s1.length) :
    scipy_estimator s1 s2 k
      = some (max (Real.log ((s2.length : ℝ) / ((s1.length : ℝ) - 1))
          + (((s1.headD []).length : ℝ) / (s1.length : ℝ))
            * (s1.map (fun p =>
                Real.log (kth_nn_dist s2 p k / kth_nn_dist s1 p (k + 1)))).sum) 0) := by
  have hrow : ∀ (s : List (List ℚ)) (p : List ℚ) (j : ℕ), 1 ≤ j → j ≤ s.length →
      (knnRowSq s p j).getLastD 0 = (nnSqSorted s p).getD (j - 1) 0 := by
    intro s p j hj hjs
    unfold knnRowSq
    rw [take_getLastD _ j hj (by rw [nnSqSorted_length]; exact hjs)]
  simp only [scipy_estimator]
  rw [if_neg (by simp [hshape]), if_neg (by omega)]
  by_cases hk1 : 1 < k
  · rw [if_pos hk1]
    have hmapeq : (s1.map (fun p =>
          Real.log (Real.sqrt (((knnRowSq s2 p k).getLastD 0 : ℚ) : ℝ)
            / Real.sqrt (((knnRowSq s1 p (k + 1)).getLastD 0 : ℚ) : ℝ))))
        = s1.map (fun p => Real.log (kth_nn_dist s2 p k / kth_nn_dist s1 p (k + 1))) := by
      apply List.map_congr_left
      intro p hp
      unfold kth_nn_dist
      rw [hrow s2 p k hk hkm, hrow s1 p (k + 1) (by omega) hkn]
    rw [hmapeq]
  · rw [if_neg hk1]
    have hk2 : k = 1 := by omega
    subst hk2
    have hmapeq : (s1.map (fun p =>
          Real.log (Real.sqrt (((knnRowSq s2 p 1).headD 0 : ℚ) : ℝ)
            / Real.sqrt (((knnRowSq s1 p 2).getLastD 0 : ℚ) : ℝ))))
        = s1.map (fun p => Real.log (kth_nn_dist s2 p 1 / kth_nn_dist s1 p 2)) := by
      apply List.map_congr_left
      intro p hp
      unfold kth_nn_dist
      have hhd : (knnRowSq s2 p 1).headD 0 = (nnSqSorted s2 p).getD 0 0 := by
        unfold knnRowSq
        exact take_one_headD _
      rw [hhd, hrow s1 p 2 (by omega) hkn]
    rw [hmapeq]

theorem scipy_estimator_wang_formula_witness :
    (sample_shapes_ok [[(0 : ℚ)], [2]] [[(1 : ℚ)]] = true
        ∧ 2 ≤ ([[(0 : ℚ)], [2]] : List (List ℚ)).length
        ∧ 1 ≤ 1 ∧ 1 ≤ ([[(1 : ℚ)]] : List (List ℚ)).length
        ∧ 1 + 1 ≤ ([[(0 : ℚ)], [2]] : List (List ℚ)).length) ∧
      scipy_estimator [[(0 : ℚ)], [2]] [[(1 : ℚ)]] 1
        = some (max (Real.log ((([[(1 : ℚ)]] : List (List ℚ)).length : ℝ)
              / ((([[(0 : ℚ)], [2]] : List (List ℚ)).length : ℝ) - 1))
            + (((([[(0 : ℚ)], [2]] : List (List ℚ)).headD []).length : ℝ)
                / (([[(0 : ℚ)], [2]] : List (List ℚ)).length : ℝ))
              * (([[(0 : ℚ)], [2]] : List (List ℚ)).map (fun p =>
                  Real.log (kth_nn_dist [[(1 : ℚ)]] p 1
                    / kth_nn_dist [[(0 : ℚ)], [2]] p 2))).sum) 0) :=
  ⟨⟨by decide, by decide, by decide, by decide, by decide⟩,
    scipy_estimator_wang_formula [[(0 : ℚ)], [2]] [[(1 : ℚ)]] 1 (by decide) (by decide)
      (by decide) (by decide) (by decide)⟩

theorem diffsAdj_ne_nil (l : List ℚ) (h : 2 ≤ l.length) : diffsAdj l ≠ [] := by
  cases l with
  | nil => simp at h
  | cons a rest =>
    cases rest with
    | nil => simp at h
    | cons b rest2 => simp [diffsAdj]

theorem np_unique_two_le (X : List ℚ) (a b : ℚ) (ha : a ∈ X) (hb : b ∈ X)
    (hne : a ≠ b) : 2 ≤ (np_unique X).length := by
  have ha2 : a ∈ np_unique X := by
    rw [np_unique_def, runs_values_mem]
    exact (npSort_perm X).mem_iff.2 ha
  have hb2 : b ∈ np_unique X := by
    rw [np_unique_def, runs_values_mem]
    exact (npSort_perm X).mem_iff.2 hb
  cases hu : np_unique X with
  | nil =>
    rw [hu] at ha2
    simp at ha2
  | cons c rest =>
    cases rest with
    | nil =>
      rw [hu] at ha2 hb2
      simp only [List.mem_singleton] at ha2 hb2
      exact absurd (ha2.trans hb2.symm) hne
    | cons d rest2 => simp

theorem eps_default_isSome (X Y : List ℚ)
    (h : 2 ≤ (np_unique X).length ∨ 2 ≤ (np_unique Y).length) :
    ∃ e, eps_default X Y = some e := by
  unfold eps_default
  cases hg : diffsAdj (np_unique X) ++ diffsAdj (np_unique Y) with
  | nil =>
    exfalso
    obtain ⟨h1, h2⟩ := List.append_eq_nil.1 hg
    rcases h with h | h
    · exact diffsAdj_ne_nil _ h h1
    · exact diffsAdj_ne_nil _ h h2
  | cons g gs => exact ⟨_, rfl⟩

/-- Claim C8 (counterexample): the claim that no estimator raises on
    mathematically valid extreme inputs fails on the code: with both samples
    constant (here the non-empty 1-D samples [0] and [0]) and epsilon left to
    its default, kl_div takes the min of an empty array of spacings and
    raises ValueError, modelled by kl_div_full evaluating to none instead of
    returning a scalar. -/
theorem no_estimator_raises_counterexample :
    kl_div_full [(0 : ℚ)] [(0 : ℚ)] none = none := by
  simp only [kl_div_full]
  rw [if_neg (by simp)]
  have h : eps_default [(0 : ℚ)] [(0 : ℚ)] = none := by
    norm_num [eps_default, np_unique, npSort, runs, diffsAdj,
      List.insertionSort, List.orderedInsert]
  rw [h]
  rfl

/-- Claim C8 (amended): for mathematically valid but extreme inputs the
    estimators return floored/approximate scalars rather than failing, with
    the exception the code forces: kl_div with an omitted epsilon fails when
    neither sample has two distinct values.  With an explicit epsilon, or
    with two distinct values in X or Y, kl_div returns; kl_div_bin and
    mutual_info_classif_mixed always return; scipy_estimator returns for
    samples passing its shape check with N1 at least 2. -/
theorem estimators_do_not_raise :
    (∀ (X Y : List ℚ) (eps : ℚ), X ≠ [] → Y ≠ [] →
        kl_div_full X Y (some eps) = some (kl_div X Y eps))
      ∧ (∀ X Y : List ℚ, X ≠ [] → Y ≠ [] →
          ((∃ a ∈ X, ∃ b ∈ X, a ≠ b) ∨ (∃ a ∈ Y, ∃ b ∈ Y, a ≠ b)) →
          ∃ r, kl_div_full X Y none = some r)
      ∧ (∀ (binT : ℚ → ℕ) (n_bins : ℕ) (X Y : List ℚ), 0 ≤ kl_div_bin binT n_bins X Y)
      ∧ (∀ (s1 s2 : List (List ℚ)) (k : ℕ), sample_shapes_ok s1 s2 = true →
          2 ≤ s1.length → ∃ r, scipy_estimator s1 s2 k = some r)
      ∧ (∀ (mi : List (Option ℚ) → List ℚ → Bool → ℝ) (x : List (Option ℚ))
          (y : List ℚ) (sc : Option ℚ), ∃ r, mutual_info_classif_mixed mi x y sc = r) := by
  refine ⟨?_, ?_, ?_, ?_, ?_⟩
  · intro X Y eps hX hY
    simp only [kl_div_full]
    rw [if_neg (by simp [hX, hY])]
  · intro X Y hX hY hdist
    have h2 : 2 ≤ (np_unique X).length ∨ 2 ≤ (np_unique Y).length := by
      rcases hdist with ⟨a, ha, b, hb, hne⟩ | ⟨a, ha, b, hb, hne⟩
      · exact Or.inl (np_unique_two_le X a b ha hb hne)
      · exact Or.inr (np_unique_two_le Y a b ha hb hne)
    obtain ⟨e, he⟩ := eps_default_isSome X Y h2
    refine ⟨kl_div X Y e, ?_⟩
    simp only [kl_div_full]
    rw [if_neg (by simp [hX, hY]), he]
    rfl
  · intro binT n_bins X Y
    unfold kl_div_bin
    exact le_max_left _ _
  · intro s1 s2 k hshape hn
    simp only [scipy_estimator]
    rw [if_neg (by simp [hshape]), if_neg (by omega)]
    exact ⟨_, rfl⟩
  · intro mi x y sc
    exact ⟨_, rfl⟩

theorem estimators_do_not_raise_witness :
    (([(0 : ℚ), 1] : List ℚ) ≠ []
        ∧ ((∃ a ∈ [(0 : ℚ), 1], ∃ b ∈ [(0 : ℚ), 1], a ≠ b)
            ∨ (∃ a ∈ [(0 : ℚ), 1], ∃ b ∈ [(0 : ℚ), 1], a ≠ b))
        ∧ sample_shapes_ok [[(0 : ℚ)], [1]] [[(0 : ℚ)]] = true
        ∧ 2 ≤ ([[(0 : ℚ)], [1]] : List (List ℚ)).length) ∧
      (kl_div_full [(0 : ℚ), 1] [(0 : ℚ), 1] (some 1)
          = some (kl_div [(0 : ℚ), 1] [(0 : ℚ), 1] 1)
        ∧ (∃ r, kl_div_full [(0 : ℚ), 1] [(0 : ℚ), 1] none = some r)
        ∧ 0 ≤ kl_div_bin (fun _ => 0) 1 [0] [0]
        ∧ (∃ r, scipy_estimator [[(0 : ℚ)], [1]] [[(0 : ℚ)]] 1 = some r)
        ∧ (∃ r, mutual_info_classif_mixed (fun _ _ _ => (0 : ℝ)) [some 0] [0] none = r)) :=
  ⟨⟨by decide, by decide, by decide, by decide⟩,
    estimators_do_not_raise.1 [0, 1] [0, 1] 1 (by decide) (by decide),
    estimators_do_not_raise.2.1 [0, 1] [0, 1] (by decide) (by decide) (by decide),
    estimators_do_not_raise.2.2.1 (fun _ => 0) 1 [0] [0],
    estimators_do_not_raise.2.2.2.1 [[(0 : ℚ)], [1]] [[(0 : ℚ)]] 1 (by decide) (by decide),
    estimators_do_not_raise.2.2.2.2 (fun _ _ _ => (0 : ℝ)) [some 0] [0] none⟩

end Playground
